import Mathlib

/-!
Verification of the Verible layout optimizer core
(`common/formatting/layout_optimizer.cc`) against its specification.

The development shallowly embeds the C++ implementation: machine `int`
values become `Int`, the `float` cost intercepts (which only ever hold
integer values produced by integer sums and products) are modelled as
exact `Int` values, and the single floating-point division in the Choice
combinator is modelled as exact rational division followed by `ceil`,
mirroring `std::ceil`.  Fatal `CHECK` failures and `LOG(FATAL)` paths are
modelled by returning `none`.
-/

namespace Verible

/-- Mirrors `LayoutType` from the source: kLine, kJuxtaposition, kStack. -/
inductive LayoutType where
  | line
  | juxtaposition
  | stack
deriving DecidableEq, Repr

/-- Mirrors `SpacingOptions` (`break_decision` values of a token). -/
inductive SpacingOptions where
  | undecided
  | mustAppend
  | mustWrap
  | preserve
deriving DecidableEq, Repr

/-- Mirrors `PartitionPolicyEnum` from `token_partition_tree` /
`unwrapped_line`. -/
inductive PartitionPolicyEnum where
  | uninitialized
  | alwaysExpand
  | fitOnLineElseExpand
  | tabularAlignment
  | alreadyFormatted
  | optimalFunctionCallLayout
  | appendFittingSubPartitions
deriving DecidableEq, Repr, Inhabited

/-- Mirrors `BasicFormatStyle`: the style options read by the optimizer. -/
structure BasicFormatStyle where
  indentation_spaces : Int := 2
  wrap_spaces : Int := 4
  column_limit : Int := 100
  over_column_limit_penalty : Int := 100
  line_break_penalty : Int := 2
deriving DecidableEq, Repr

/-- Mirrors `PreFormatToken`: the per-token data the optimizer reads
(rendered width) and writes (`before.break_decision`,
`before.spaces_required`). -/
structure PreFormatToken where
  width : Int := 0
  spacesRequired : Int := 0
  breakDecision : SpacingOptions := .undecided
deriving DecidableEq, Repr

/-- Mirrors `UnwrappedLine`: an indentation, a partition policy and a
half-open token range `[tokensBegin, tokensEnd)` into the global token
sequence. -/
structure UnwrappedLine where
  indentationSpaces : Int := 0
  partitionPolicy : PartitionPolicyEnum := .uninitialized
  tokensBegin : Nat := 0
  tokensEnd : Nat := 0
deriving DecidableEq, Repr, Inhabited

/-- Rendered length of a token sequence: width of the first token plus,
for every following token, its inter-token spacing and width.
Modelled from the spec: the source computes an unwrapped line's rendered
length in `unwrapped_line.cc` (`UnwrappedLineLength`), which is not among
the provided files; the spec describes it as the line's rendered width in
characters (token texts plus required spaces between them). -/
def tokensLength : List PreFormatToken → Int
  | [] => 0
  | t :: ts => ts.foldl (fun acc u => acc + u.spacesRequired + u.width) t.width

/-- Token slice of an unwrapped line. -/
def UnwrappedLine.tokens (toks : List PreFormatToken) (uw : UnwrappedLine) :
    List PreFormatToken :=
  (toks.drop uw.tokensBegin).take (uw.tokensEnd - uw.tokensBegin)

/-- Rendered length of an unwrapped line. -/
def UnwrappedLine.length (toks : List PreFormatToken) (uw : UnwrappedLine) : Int :=
  tokensLength (uw.tokens toks)

/-- Mirrors `LayoutItem`: the payload of a layout-tree node. -/
structure LayoutItem where
  type : LayoutType
  spacesBefore : Int := 0
  mustWrap : Bool := false
  indentationSpaces : Int := 0
  length : Int := 0
  tokensBegin : Nat := 0
  tokensEnd : Nat := 0
deriving DecidableEq, Repr

/-- Mirrors the `LayoutItem(const UnwrappedLine&, int indentation)`
constructor: a Line item whose length is the line's rendered length,
whose spacing and must-wrap flag come from the line's first token. -/
def LayoutItem.ofUnwrappedLine (toks : List PreFormatToken)
    (uw : UnwrappedLine) (indent : Int := 0) : LayoutItem :=
  { type := .line
    spacesBefore :=
      match uw.tokens toks with
      | [] => 0
      | t :: _ => t.spacesRequired
    mustWrap :=
      match uw.tokens toks with
      | [] => false
      | t :: _ => t.breakDecision = SpacingOptions.mustWrap
    indentationSpaces := indent
    length := uw.length toks
    tokensBegin := uw.tokensBegin
    tokensEnd := uw.tokensEnd }

/-- Mirrors the `LayoutItem(LayoutType, int spacing, bool must_wrap,
int indentation)` constructor for composite items. -/
def LayoutItem.comp (type : LayoutType) (spacesBefore : Int)
    (mustWrap : Bool) (indent : Int := 0) : LayoutItem :=
  { type := type
    spacesBefore := spacesBefore
    mustWrap := mustWrap
    indentationSpaces := indent }

/-- Mirrors `LayoutTree = VectorTree<LayoutItem>`. -/
inductive LayoutTree where
  | node (item : LayoutItem) (children : List LayoutTree)

/-- Mirrors `tree.Value()`. -/
def LayoutTree.item : LayoutTree → LayoutItem
  | .node i _ => i

/-- Children list of a layout tree. -/
def LayoutTree.children : LayoutTree → List LayoutTree
  | .node _ c => c

/-- Mirrors `tree.is_leaf()`. -/
def LayoutTree.isLeaf (t : LayoutTree) : Bool :=
  t.children.isEmpty

/-- Mirrors `new_layout.Value().SetIndentationSpaces(
new_layout.Value().IndentationSpaces() + indent)` in `Indent`: adds to the
root item's indentation, keeping children untouched. -/
def LayoutTree.addRootIndent (t : LayoutTree) (indent : Int) : LayoutTree :=
  .node { t.item with
            indentationSpaces := t.item.indentationSpaces + indent }
    t.children

/-- Replaces the root item's indentation (used to state claims comparing a
node against the same node with zero relative indentation). -/
def LayoutTree.withRootIndent (t : LayoutTree) (indent : Int) : LayoutTree :=
  .node { t.item with indentationSpaces := indent } t.children

/-- Mirrors `LayoutFunctionSegment`. -/
structure LayoutFunctionSegment where
  column : Int
  layout : LayoutTree
  span : Int
  intercept : Int
  gradient : Int

/-- Mirrors `LayoutFunction`: an ordered sequence of segments. -/
abbrev LayoutFunction := List LayoutFunctionSegment

/-- Mirrors `LayoutFunctionSegment::CostAt(int column)`.
Modelled from the spec: the member is declared in
`layout_optimizer_internal.h` (not among the provided files); the spec
defines the segment cost as
`cost(x) = intercept + gradient * (x - column)`. -/
def LayoutFunctionSegment.CostAt (s : LayoutFunctionSegment) (column : Int) : Int :=
  s.intercept + s.gradient * (column - s.column)

/-- Result of the `AtOrToTheLeftOf` lookup: the end iterator (empty
function), a fatal `CHECK_NE(it, begin())` failure (past-the-start), or a
valid segment index. -/
inductive LookupResult where
  | endIt
  | checkFail
  | seg (i : Nat)
deriving DecidableEq, Repr

/-- Number of leading segments whose `column` is at most `column`.  On the
sorted segment sequences the implementation maintains, this is exactly the
index computed by the `std::lower_bound` call in `AtOrToTheLeftOf` (the
first segment with `s.column > column`). -/
def lowerBoundIndex (lf : LayoutFunction) (column : Int) : Nat :=
  (lf.takeWhile (fun s => s.column ≤ column)).length

/-- Mirrors `LayoutFunction::AtOrToTheLeftOf(int column)`: returns the end
iterator on an empty function; otherwise finds the first segment to the
right of `column` and steps back one, with `CHECK_NE(it, begin())` firing
when even the first segment lies to the right of `column`. -/
def LayoutFunction.AtOrToTheLeftOf (lf : LayoutFunction) (column : Int) :
    LookupResult :=
  if lf.isEmpty then .endIt
  else
    match lowerBoundIndex lf column with
    | 0 => .checkFail
    | i + 1 => .seg i

/-- Successful lookup as an option on the segment itself (used by the
combinators; a `none` models the fatal path). -/
def LayoutFunction.atOrLeft (lf : LayoutFunction) (column : Int) :
    Option LayoutFunctionSegment :=
  match lf.AtOrToTheLeftOf column with
  | .seg i => lf.get? i
  | _ => none

/-- Evaluated cost of a layout function at a column: cost of the segment
at or to the left of the column (0 when the lookup fails; lookups never
fail on the well-formed functions the claims quantify over). -/
def LayoutFunction.costAt (lf : LayoutFunction) (column : Int) : Int :=
  match lf.atOrLeft column with
  | some s => s.CostAt column
  | none => 0

/-- Gradient of a layout function at a column (0 when the lookup fails). -/
def LayoutFunction.gradientAt (lf : LayoutFunction) (column : Int) : Int :=
  match lf.atOrLeft column with
  | some s => s.gradient
  | none => 0

/-- Mirrors `LayoutFunctionFactory::Line(const UnwrappedLine&)`. -/
def LayoutFunctionFactory.Line (style : BasicFormatStyle)
    (toks : List PreFormatToken) (uwline : UnwrappedLine) : LayoutFunction :=
  let layout : LayoutTree := .node (LayoutItem.ofUnwrappedLine toks uwline) []
  let span : Int := layout.item.length
  if span < style.column_limit then
    [ { column := 0, layout := layout, span := span, intercept := 0,
        gradient := 0 },
      { column := style.column_limit - span, layout := layout, span := span,
        intercept := 0, gradient := style.over_column_limit_penalty } ]
  else
    [ { column := 0, layout := layout, span := span,
        intercept := (span - style.column_limit) * style.over_column_limit_penalty,
        gradient := style.over_column_limit_penalty } ]

/-- Mirrors the anonymous-namespace helper
`AdoptLayoutAndFlattenIfSameType(const LayoutTree&, LayoutTree*)`: when the
source is a non-leaf of the same type as the destination with no extra
indentation, its children are inlined into the destination; otherwise the
whole source becomes one more child.  (The source's two internal `CHECK`s
compare the source root's must-wrap and spacing with its first child's;
they hold by construction for combinator-produced trees and do not affect
the resulting structure.) -/
def AdoptLayoutAndFlattenIfSameType (source : LayoutTree)
    (destination : LayoutTree) : LayoutTree :=
  if ¬source.isLeaf ∧ source.item.type = destination.item.type ∧
      source.item.indentationSpaces = 0 then
    .node destination.item (destination.children ++ source.children)
  else
    .node destination.item (destination.children ++ [source])

/-- Mirrors `constexpr int kInfinity = std::numeric_limits<int>::max()`. -/
def kInfinity : Int := 2147483647

/-- Ceiling of an exact rational, mirroring `std::ceil` applied to the
(real-valued) crossover offset in `Choice`. -/
def ratCeil (q : Rat) : Int :=
  Int.ediv (q.num + (q.den : Int) - 1) (q.den : Int)

/-- One output segment of `LayoutFunctionFactory::Indent`, built from the
input segment `s` evaluated at input column `column` and emitted at output
column `indentColumn`. -/
def mkIndentSegment (style : BasicFormatStyle) (indent : Int)
    (s : LayoutFunctionSegment) (column indentColumn : Int) :
    LayoutFunctionSegment :=
  let over := column - style.column_limit
  { column := indentColumn
    layout := s.layout.addRootIndent indent
    span := indent + s.span
    intercept := s.CostAt column - style.over_column_limit_penalty * max over 0
    gradient := s.gradient -
      style.over_column_limit_penalty * (if 0 ≤ over then 1 else 0) }

/-- The `while (true)` loop of `LayoutFunctionFactory::Indent`: walks the
remaining input segments; after the first iteration the evaluation column
is each segment's own knot and the output knot is that column shifted left
by `indent`. -/
def indentLoop (style : BasicFormatStyle) (indent : Int) :
    List LayoutFunctionSegment → Int → Int → LayoutFunction
  | [], _, _ => []
  | s :: rest, column, indentColumn =>
    mkIndentSegment style indent s column indentColumn ::
      match rest with
      | [] => []
      | s2 :: _ => indentLoop style indent rest s2.column (s2.column - indent)

/-- Mirrors `LayoutFunctionFactory::Indent(const LayoutFunction&, int)`.
The two `CHECK`s (non-empty input, non-negative indent) and a fatal
segment lookup are modelled as `none`. -/
def LayoutFunctionFactory.Indent (style : BasicFormatStyle)
    (lf : LayoutFunction) (indent : Int) : Option LayoutFunction :=
  if lf.isEmpty then none
  else if indent < 0 then none
  else
    match lf.AtOrToTheLeftOf indent with
    | .seg i => some (indentLoop style indent (lf.drop i) indent 0)
    | _ => none

/-- One output segment of the pairwise
`LayoutFunctionFactory::Juxtaposition`, combining the current left and
right segments at their respective columns. -/
def juxtaSegment (style : BasicFormatStyle)
    (sl sr : LayoutFunctionSegment) (columnL columnR : Int) :
    LayoutFunctionSegment :=
  let over := columnR - style.column_limit
  let newLayout :=
    AdoptLayoutAndFlattenIfSameType sr.layout
      (AdoptLayoutAndFlattenIfSameType sl.layout
        (.node (LayoutItem.comp .juxtaposition sl.layout.item.spacesBefore
                  sl.layout.item.mustWrap) []))
  { column := columnL
    layout := newLayout
    span := sl.span + sr.span + sr.layout.item.spacesBefore
    intercept := sl.CostAt columnL + sr.CostAt columnR -
      style.over_column_limit_penalty * max over 0
    gradient := sl.gradient + sr.gradient -
      (if 0 ≤ over then style.over_column_limit_penalty else 0) }

/-- The sweep loop of the pairwise `Juxtaposition`: advances whichever
input has the nearer next knot, recomputing the other side's column.  The
loop in the source terminates because the left index advances monotonically
and the right index advances between left steps; the fuel passed by the
entry point is a safe upper bound on the iteration count, and running out
of fuel is modelled as `none`. -/
def juxtaLoop (style : BasicFormatStyle) (left right : LayoutFunction) :
    Nat → Nat → Nat → Int → Int → Option LayoutFunction
  | 0, _, _, _, _ => none
  | fuel + 1, il, ir, columnL, columnR => do
    let sl ← left.get? il
    let sr ← right.get? ir
    let seg := juxtaSegment style sl sr columnL columnR
    let nextColumnL :=
      match left.get? (il + 1) with
      | some s => s.column
      | none => kInfinity
    let nextColumnR :=
      match right.get? (ir + 1) with
      | some s => s.column
      | none => kInfinity
    if il + 1 = left.length ∧ ir + 1 = right.length then
      pure [seg]
    else if ir + 1 = right.length ∨
        nextColumnL - columnL ≤ nextColumnR - columnR then do
      let sl2 ← left.get? (il + 1)
      let columnR2 := nextColumnL + sl2.span + sr.layout.item.spacesBefore
      match right.AtOrToTheLeftOf columnR2 with
      | .seg ir2 =>
          (juxtaLoop style left right fuel (il + 1) ir2 nextColumnL
              columnR2).map (seg :: ·)
      | _ => none
    else
      (juxtaLoop style left right fuel il (ir + 1)
          (nextColumnR - sl.span - sr.layout.item.spacesBefore)
          nextColumnR).map (seg :: ·)

/-- Mirrors the pairwise
`LayoutFunctionFactory::Juxtaposition(const LayoutFunction&, const
LayoutFunction&)`; the `CHECK`s on non-empty inputs and fatal lookups are
modelled as `none`. -/
def LayoutFunctionFactory.JuxtapositionPair (style : BasicFormatStyle)
    (left right : LayoutFunction) : Option LayoutFunction :=
  if left.isEmpty ∨ right.isEmpty then none
  else do
    let sl0 ← left.get? 0
    let sr0 ← right.get? 0
    let columnR0 := sl0.span + sr0.layout.item.spacesBefore
    match right.AtOrToTheLeftOf columnR0 with
    | .seg ir0 =>
        juxtaLoop style left right ((left.length + 1) * (right.length + 2))
          0 ir0 0 columnR0
    | _ => none

/-- Mirrors the variadic
`LayoutFunctionFactory::Juxtaposition(std::initializer_list)`: empty input
gives the empty function, a single input is returned unchanged, otherwise
a left fold of the pairwise juxtaposition. -/
def LayoutFunctionFactory.Juxtaposition (style : BasicFormatStyle)
    (lfs : List LayoutFunction) : Option LayoutFunction :=
  match lfs with
  | [] => some []
  | first :: rest =>
      rest.foldlM (fun acc lf =>
        LayoutFunctionFactory.JuxtapositionPair style acc lf) first

/-- One output segment of `LayoutFunctionFactory::Stack`: starts from the
line-break penalty and a fresh Stack item carrying the first child's
spacing, then folds every function's segment at the current column into
the intercept, gradient and adopted layout. -/
def stackSegment (lfs : List LayoutFunction)
    (spacesBefore : Int) (mustWrap : Bool) (span : Int) (penalty : Int)
    (c : Int) : Option LayoutFunctionSegment :=
  lfs.foldlM
    (fun seg lf => do
      let s ← lf.atOrLeft c
      pure { seg with
               intercept := seg.intercept + s.CostAt c
               gradient := seg.gradient + s.gradient
               layout := AdoptLayoutAndFlattenIfSameType s.layout seg.layout })
    { column := c
      layout := .node (LayoutItem.comp .stack spacesBefore mustWrap) []
      span := span
      intercept := penalty
      gradient := 0 }

/-- The next-column computation of the `Stack` loop: the minimum of the
knots immediately to the right of the current column, `kInfinity` when
every function is on its last segment.  The `CHECK_GE(column,
current_column)` is modelled as `none`. -/
def stackNextColumn (lfs : List LayoutFunction) (c : Int) : Option Int :=
  lfs.foldlM
    (fun acc lf =>
      match lf.AtOrToTheLeftOf c with
      | .seg i =>
          match lf.get? (i + 1) with
          | some s => if s.column < c then none else pure (min acc s.column)
          | none => pure acc
      | _ => none)
    kInfinity

/-- The `do … while (current_column < kInfinity)` loop of `Stack`.  The
source loop terminates because the current column strictly increases
through the finite knot set; the fuel passed by `stackCore` is a safe
bound, and exhaustion is modelled as `none`. -/
def stackLoop (style : BasicFormatStyle) (lfs : List LayoutFunction)
    (spacesBefore : Int) (mustWrap : Bool) (span : Int) (penalty : Int) :
    Nat → Int → Option LayoutFunction
  | 0, _ => none
  | fuel + 1, c => do
    let seg ← stackSegment lfs spacesBefore mustWrap span penalty c
    let c2 ← stackNextColumn lfs c
    if c2 < kInfinity then
      (stackLoop style lfs spacesBefore mustWrap span penalty fuel c2).map
        (seg :: ·)
    else
      pure [seg]

/-- Total number of segments across a list of layout functions. -/
def totalSegments (lfs : List LayoutFunction) : Nat :=
  lfs.foldl (fun n lf => n + lf.length) 0

/-- Mirrors `LayoutFunctionFactory::Stack(absl::FixedArray<iterator>*)`:
reads the first function's first-segment layout item for spacing, the last
function's first-segment span, computes the line-break penalty, and runs
the column sweep from column 0. -/
def stackCore (style : BasicFormatStyle) (lfs : List LayoutFunction) :
    Option LayoutFunction := do
  let first ← lfs.head?
  let f0 ← first.get? 0
  let lastlf ← lfs.getLast?
  let l0 ← lastlf.get? 0
  stackLoop style lfs f0.layout.item.spacesBefore f0.layout.item.mustWrap
    l0.span (((lfs.length : Int) - 1) * style.line_break_penalty)
    (totalSegments lfs + 2) 0

/-- Mirrors the variadic `LayoutFunctionFactory::Stack` overload.
Modelled from the spec where the overload itself lives in the header
(`layout_optimizer_internal.h`, not among the provided files): an empty
stack returns the empty function, a single-child stack returns that input
unchanged, and otherwise the core sweep runs over the functions'
iterators. -/
def LayoutFunctionFactory.Stack (style : BasicFormatStyle)
    (lfs : List LayoutFunction) : Option LayoutFunction :=
  match lfs with
  | [] => some []
  | [f] => some f
  | _ => stackCore style lfs

/-- A positioned iterator of the `Choice` sweep: the input function's
index, the current segment's index in it, and that segment. -/
structure ChoicePos where
  fn : Nat
  idx : Nat
  seg : LayoutFunctionSegment

/-- Positions every function's iterator at the segment at or to the left
of the current column (the `MoveToKnotAtOrToTheLeftOf` calls at the top of
the outer `Choice` loop); a fatal lookup is modelled as `none`. -/
def choicePositions (lfs : List LayoutFunction) (c : Int) :
    Option (List ChoicePos) :=
  (List.range lfs.length).mapM (fun i => do
    let lf ← lfs.get? i
    match lf.AtOrToTheLeftOf c with
    | .seg j => do
        let s ← lf.get? j
        pure (ChoicePos.mk i j s)
    | _ => none)

/-- Starting column of the next closest segment across all inputs
(`next_knot` in the source), `kInfinity` when all are on their last
segment. -/
def choiceNextKnot (lfs : List LayoutFunction) (pos : List ChoicePos) : Int :=
  pos.foldl
    (fun acc p =>
      match (lfs.get? p.fn).bind (fun lf => lf.get? (p.idx + 1)) with
      | some s => if s.column < acc then s.column else acc
      | none => acc)
    kInfinity

/-- The comparator passed to `std::min_element` in `Choice`: cheaper cost
first; on equal cost, `a->gradient <= b->gradient`. -/
def choiceComp (c : Int) (a b : ChoicePos) : Bool :=
  if a.seg.CostAt c ≠ b.seg.CostAt c then
    decide (a.seg.CostAt c < b.seg.CostAt c)
  else
    decide (a.seg.gradient ≤ b.seg.gradient)

/-- Mirrors `std::min_element` (libstdc++/libc++ semantics): keep the
current best and replace it whenever the comparator says a later element
is smaller. -/
def choiceMinElement (c : Int) : List ChoicePos → Option ChoicePos
  | [] => none
  | p :: ps =>
      some (ps.foldl (fun best q => if choiceComp c q best then q else best) p)

/-- The crossover search of the inner `Choice` loop: among functions with
strictly smaller gradient than the current minimum, the nearest integer
crossover column strictly between the current column and the next knot. -/
def choiceNextColumn (c : Int) (nextKnot : Int) (minp : ChoicePos)
    (pos : List ChoicePos) : Int :=
  pos.foldl
    (fun nextColumn p =>
      if p.seg.gradient < minp.seg.gradient then
        let gamma : Rat :=
          ((p.seg.CostAt c - minp.seg.CostAt c : Int) : Rat) /
            ((minp.seg.gradient - p.seg.gradient : Int) : Rat)
        let col := c + ratCeil gamma
        if c < col ∧ col < nextColumn then col else nextColumn
      else nextColumn)
    nextKnot

/-- The inner `do … while (current_column < next_knot)` loop of `Choice`:
emits a segment whenever the argmin iterator changes, then hops to the
nearest crossover (or the next knot).  Fuel exhaustion models a bound the
source loop never reaches on well-formed inputs. -/
def choiceInner (lfs : List LayoutFunction) :
    Nat → Int → Int → List ChoicePos → Option (Nat × Nat) → LayoutFunction →
    Option (Int × Option (Nat × Nat) × LayoutFunction)
  | 0, _, _, _, _, _ => none
  | fuel + 1, c, nextKnot, pos, last, acc => do
    let minp ← choiceMinElement c pos
    let stepped :=
      if some (minp.fn, minp.idx) ≠ last then
        (some (minp.fn, minp.idx),
          acc ++ [{ column := c, layout := minp.seg.layout,
                    span := minp.seg.span, intercept := minp.seg.CostAt c,
                    gradient := minp.seg.gradient }])
      else (last, acc)
    let c2 := choiceNextColumn c nextKnot minp pos
    if c2 < nextKnot then
      choiceInner lfs fuel c2 nextKnot pos stepped.1 stepped.2
    else
      pure (c2, stepped.1, stepped.2)

/-- The outer `do … while (current_column < kInfinity)` loop of `Choice`. -/
def choiceOuter (lfs : List LayoutFunction) :
    Nat → Int → Option (Nat × Nat) → LayoutFunction → Option LayoutFunction
  | 0, _, _, _ => none
  | fuel + 1, c, last, acc => do
    let pos ← choicePositions lfs c
    let nextKnot := choiceNextKnot lfs pos
    let r ← choiceInner lfs (totalSegments lfs + lfs.length + 3) c nextKnot
      pos last acc
    if r.1 < kInfinity then
      choiceOuter lfs fuel r.1 r.2.1 r.2.2
    else
      pure r.2.2

/-- Mirrors `LayoutFunctionFactory::Choice(absl::FixedArray<iterator>*)`:
the sweep starts at column 0 with the sentinel "no previous minimum"
iterator. -/
def choiceCore (lfs : List LayoutFunction) : Option LayoutFunction :=
  if lfs.isEmpty then none
  else choiceOuter lfs (totalSegments lfs + 2) 0 none []

/-- Mirrors the variadic `LayoutFunctionFactory::Choice` overload.
Modelled from the spec where the overload itself lives in the header (not
among the provided files): the empty choice is the empty function,
otherwise the core sweep runs over the inputs. -/
def LayoutFunctionFactory.Choice (lfs : List LayoutFunction) :
    Option LayoutFunction :=
  match lfs with
  | [] => some []
  | _ => choiceCore lfs

/-- Mirrors `LayoutFunction::MustWrap()`.  Modelled from the spec: the
member lives in the header (not among the provided files); the spec reads
"If `args_f`'s root must wrap", i.e. the must-wrap flag of the function's
first segment's root layout item. -/
def LayoutFunction.MustWrap (lf : LayoutFunction) : Bool :=
  match lf.head? with
  | some s => s.layout.item.mustWrap
  | none => false

/-- All ways to cut a list into non-empty consecutive groups. -/
def compositions {α : Type} : List α → List (List (List α))
  | [] => [[]]
  | x :: rest =>
      (compositions rest).flatMap (fun c =>
        match c with
        | [] => [[[x]]]
        | g :: gs => [[x] :: g :: gs, (x :: g) :: gs])

/-- Mirrors `LayoutFunctionFactory::Wrap`.  Modelled from the spec: the
implementation lives in the header (not among the provided files); the
spec defines `Wrap(F1, …, Fn)` as the lower envelope (`Choice`) of the
all-horizontal arrangement, the all-vertical arrangement, and the
intermediate V-of-H arrangements stacking juxtaposed consecutive groups
("for each split point k, stacking Juxtaposition(F1…Fk) atop
Juxtaposition(Fk+1…Fn) etc."). -/
def LayoutFunctionFactory.Wrap (style : BasicFormatStyle)
    (lfs : List LayoutFunction) : Option LayoutFunction :=
  match lfs with
  | [] => some []
  | [f] => some f
  | _ => do
    let arrangements ← (compositions lfs).mapM (fun groups => do
      let rows ← groups.mapM (LayoutFunctionFactory.Juxtaposition style)
      LayoutFunctionFactory.Stack style rows)
    LayoutFunctionFactory.Choice arrangements

/-- Mirrors `TokenPartitionTree = VectorTree<UnwrappedLine>`. -/
inductive TokenPartitionTree where
  | node (value : UnwrappedLine) (children : List TokenPartitionTree)

/-- Mirrors `node.Value()`. -/
def TokenPartitionTree.value : TokenPartitionTree → UnwrappedLine
  | .node v _ => v

/-- Children list of a partition tree node. -/
def TokenPartitionTree.children : TokenPartitionTree → List TokenPartitionTree
  | .node _ c => c

mutual

/-- Mirrors the recursive lambda `TraverseTree` inside
`OptimizeTokenPartitionTree`: leaves become `Line`, internal nodes
dispatch on the partition policy, and the `LOG(FATAL)` on an unsupported
policy — as well as the `CHECK_EQ(subnode.Children().size(), 2)` for
`kOptimalFunctionCallLayout` — is modelled as `none`. -/
def TraverseTree (style : BasicFormatStyle) (toks : List PreFormatToken) :
    TokenPartitionTree → Option LayoutFunction
  | .node v ch =>
    if ch.isEmpty then some (LayoutFunctionFactory.Line style toks v)
    else
      match v.partitionPolicy, ch with
      | .optimalFunctionCallLayout, [headerTree, argsTree] => do
          let header ← TraverseTree style toks headerTree
          let args ← TraverseTree style toks argsTree
          let indented ←
            LayoutFunctionFactory.Indent style args style.wrap_spaces
          let stacked ← LayoutFunctionFactory.Stack style [header, indented]
          if args.MustWrap then
            pure stacked
          else do
            let juxtaposed ←
              LayoutFunctionFactory.Juxtaposition style [header, args]
            LayoutFunctionFactory.Choice [juxtaposed, stacked]
      | .optimalFunctionCallLayout, _ => none
      | .appendFittingSubPartitions, ch2 => do
          let layouts ← TraverseForest style toks ch2
          LayoutFunctionFactory.Wrap style layouts
      | .fitOnLineElseExpand, ch2 => do
          let layouts ← TraverseForest style toks ch2
          LayoutFunctionFactory.Wrap style layouts
      | .alwaysExpand, ch2 => do
          let layouts ← TraverseForest style toks ch2
          LayoutFunctionFactory.Stack style layouts
      | .tabularAlignment, ch2 => do
          let layouts ← TraverseForest style toks ch2
          LayoutFunctionFactory.Stack style layouts
      | _, _ => none
termination_by structural t => t

/-- The `std::transform` over a node's children in the driver: traverses
each child in order, propagating a fatal result. -/
def TraverseForest (style : BasicFormatStyle) (toks : List PreFormatToken) :
    List TokenPartitionTree → Option (List LayoutFunction)
  | [] => some []
  | t :: ts => do
      let lf ← TraverseTree style toks t
      let rest ← TraverseForest style toks ts
      pure (lf :: rest)
termination_by structural l => l

end

mutual

/-- Decides whether a partition tree contains a driver contract violation:
an internal node whose policy is outside the handled set, or an internal
`optimalFunctionCallLayout` node with a child count different from two. -/
def hasContractViolation : TokenPartitionTree → Bool
  | .node v ch =>
    if ch.isEmpty then false
    else
      match v.partitionPolicy with
      | .optimalFunctionCallLayout =>
          decide (ch.length ≠ 2) || anyContractViolation ch
      | .appendFittingSubPartitions | .fitOnLineElseExpand
      | .alwaysExpand | .tabularAlignment => anyContractViolation ch
      | _ => true
termination_by structural t => t

/-- Violation check over a list of subtrees. -/
def anyContractViolation : List TokenPartitionTree → Bool
  | [] => false
  | t :: ts => hasContractViolation t || anyContractViolation ts
termination_by structural l => l

end

/-- State of `TreeReconstructor`: the flat lines emitted so far and
whether `active_unwrapped_line_` is non-null (it always points at the last
emitted line). -/
structure TRState where
  lines : List UnwrappedLine
  active : Bool
deriving DecidableEq, Repr

/-- Mirrors `FitsOnLine(*active_unwrapped_line_, style_).final_column`.
Modelled from the spec: `FitsOnLine` lives in `line_wrap_searcher.cc` (not
among the provided files); the spec describes the value as "the column
where the current line ends (its final column)", i.e. the line's
indentation plus its rendered length. -/
def finalColumn (toks : List PreFormatToken) (line : UnwrappedLine) : Int :=
  line.indentationSpaces + line.length toks

/-- Extends the last line's token span (`SpanUpToToken(tokens.end())` on
the active line, which is always the last emitted one). -/
def extendLast (lines : List UnwrappedLine) (e : Nat) : List UnwrappedLine :=
  match lines with
  | [] => []
  | [l] => [{ l with tokensEnd := e }]
  | l :: l2 :: ls => l :: extendLast (l2 :: ls) e

mutual

/-- Mirrors `TreeReconstructor::TraverseTree(const LayoutTree&)`.  The
current indentation (a member saved and restored through `ValueSaver`) is
threaded as the `curInd` argument; the emitted lines and active-line
pointer form the state.  The `LOG_IF(WARNING, …)` call does not change any
state and is modelled separately by `trWarn`. -/
def trTraverse (toks : List PreFormatToken) :
    LayoutTree → Int → TRState → TRState
  | .node item ch, curInd, st =>
    if item.type = .line then
      (if st.active then
        { st with lines := extendLast st.lines item.tokensEnd }
      else
        { lines := st.lines ++
            [{ indentationSpaces := curInd + item.indentationSpaces,
               partitionPolicy := .alreadyFormatted,
               tokensBegin := item.tokensBegin,
               tokensEnd := item.tokensEnd }],
          active := true })
    else if item.type = .juxtaposition then
      trJuxta toks ch (curInd + item.indentationSpaces) st
    else
      match ch with
        | [] => st
        | [c] => trTraverse toks c (curInd + item.indentationSpaces) st
        | c :: c2 :: rest =>
            trStack toks (c2 :: rest)
              (if st.active then
                finalColumn toks (st.lines.getLastD default) + item.spacesBefore
              else curInd + item.indentationSpaces)
              (trTraverse toks c (curInd + item.indentationSpaces) st)
termination_by structural t _ _ => t

/-- The `Juxtaposition` branch of the reconstructor: traverse every child
in order without resetting the active line. -/
def trJuxta (toks : List PreFormatToken) :
    List LayoutTree → Int → TRState → TRState
  | [], _, st => st
  | c :: cs, ind, st => trJuxta toks cs ind (trTraverse toks c ind st)
termination_by structural l _ _ => l

/-- The remaining-children loop of the `Stack` branch: null out the active
line before each child and traverse it at the computed indentation. -/
def trStack (toks : List PreFormatToken) :
    List LayoutTree → Int → TRState → TRState
  | [], _, st => st
  | c :: cs, ind, st =>
      trStack toks cs ind (trTraverse toks c ind { st with active := false })
termination_by structural l _ _ => l

end

mutual

/-- Number of `LOG_IF(WARNING, relative_indentation > 0 &&
active_unwrapped_line_ != nullptr)` messages emitted while reconstructing
a subtree from a given indentation and state. -/
def trWarn (toks : List PreFormatToken) :
    LayoutTree → Int → TRState → Nat
  | .node item ch, curInd, st =>
    (if 0 < item.indentationSpaces ∧ st.active then 1 else 0) +
    if item.type = .line then 0
    else if item.type = .juxtaposition then
      trWarnJuxta toks ch (curInd + item.indentationSpaces) st
    else
      match ch with
      | [] => 0
      | [c] => trWarn toks c (curInd + item.indentationSpaces) st
      | c :: c2 :: rest =>
          trWarn toks c (curInd + item.indentationSpaces) st +
            trWarnStack toks (c2 :: rest)
              (if st.active then
                finalColumn toks (st.lines.getLastD default) + item.spacesBefore
              else curInd + item.indentationSpaces)
              (trTraverse toks c (curInd + item.indentationSpaces) st)
termination_by structural t _ _ => t

/-- Warning count over a juxtaposed children list. -/
def trWarnJuxta (toks : List PreFormatToken) :
    List LayoutTree → Int → TRState → Nat
  | [], _, _ => 0
  | c :: cs, ind, st =>
      trWarn toks c ind st + trWarnJuxta toks cs ind (trTraverse toks c ind st)
termination_by structural l _ _ => l

/-- Warning count over the remaining-children loop of a stack. -/
def trWarnStack (toks : List PreFormatToken) :
    List LayoutTree → Int → TRState → Nat
  | [], _, _ => 0
  | c :: cs, ind, st =>
      trWarn toks c ind { st with active := false } +
        trWarnStack toks cs ind
          (trTraverse toks c ind { st with active := false })
termination_by structural l _ _ => l

end

/-- Result of `ReplaceTokenPartitionTreeNode` on the partition node: the
rewritten node value and the values of its new flat-line children. -/
structure ReplacedNode where
  value : UnwrappedLine
  childrenVals : List UnwrappedLine
deriving DecidableEq, Repr

/-- Applies a function to the token at an index, mirroring a write through
the mutable token range. -/
def modifyTok (toks : List PreFormatToken) (i : Nat)
    (f : PreFormatToken → PreFormatToken) : List PreFormatToken :=
  match toks.get? i with
  | some t => toks.set i (f t)
  | none => toks

/-- The `for (auto& line_ftoken : line_ftokens)` loop after `pop_front`:
every remaining token whose decision is `Undecided` becomes
`MustAppend`. -/
def applyMustAppendRange (toks : List PreFormatToken) (j e : Nat) :
    List PreFormatToken :=
  if j < e then
    applyMustAppendRange
      (modifyTok toks j (fun t =>
        if t.breakDecision = .undecided then
          { t with breakDecision := .mustAppend }
        else t))
      (j + 1) e
  else toks
termination_by e - j

/-- Per-line token mutation of `ReplaceTokenPartitionTreeNode`: on a
non-empty line, the first token is forced to `MustWrap` with zero required
spaces, and the remaining undecided tokens become `MustAppend`. -/
def applyLineDecisions (toks : List PreFormatToken) (l : UnwrappedLine) :
    List PreFormatToken :=
  if l.tokensBegin ≠ l.tokensEnd then
    applyMustAppendRange
      (modifyTok toks l.tokensBegin (fun t =>
        { t with breakDecision := .mustWrap, spacesRequired := 0 }))
      (l.tokensBegin + 1) l.tokensEnd
  else toks

/-- Mirrors `TreeReconstructor::ReplaceTokenPartitionTreeNode`: requires a
non-empty line list (`CHECK(!unwrapped_lines_.empty())`, modelled as
`none`), rewrites the node value from the first line with the last line's
span end, the reconstructor's indentation and the
`kOptimalFunctionCallLayout` policy, replaces the children with the flat
lines, and finalizes the break decisions in the token store. -/
def ReplaceTokenPartitionTreeNode (lines : List UnwrappedLine)
    (currentIndentation : Int) (toks : List PreFormatToken) :
    Option (ReplacedNode × List PreFormatToken) :=
  match lines.head?, lines.getLast? with
  | some first, some last =>
      some
        ({ value := { first with
                        tokensEnd := last.tokensEnd
                        indentationSpaces := currentIndentation
                        partitionPolicy := .optimalFunctionCallLayout }
           childrenVals := lines },
          lines.foldl applyLineDecisions toks)
  | _, _ => none

/-- Mirrors `OptimizeTokenPartitionTree`: runs the driver, selects the
root segment at or to the left of the ambient indentation, reconstructs
the chosen layout and replaces the node. -/
def OptimizeTokenPartitionTree (style : BasicFormatStyle)
    (toks : List PreFormatToken) (node : TokenPartitionTree) :
    Option (ReplacedNode × List PreFormatToken) := do
  let indentation := node.value.indentationSpaces
  let layoutFunction ← TraverseTree style toks node
  if layoutFunction.isEmpty then none
  else
    match layoutFunction.AtOrToTheLeftOf indentation with
    | .seg i => do
        let s ← layoutFunction.get? i
        let st := trTraverse toks s.layout indentation
          { lines := [], active := false }
        ReplaceTokenPartitionTreeNode st.lines indentation toks
    | _ => none

/-! ## Helper lemmas about the segment lookup -/

/-! ## Concrete samples and auxiliary predicates used by the
verification -/

def c10sample : LayoutFunction :=
  [ { column := 0, layout := .node (LayoutItem.comp .line 0 false) [],
      span := 10, intercept := 0, gradient := 0 } ]

def c5style : BasicFormatStyle :=
  { indentation_spaces := 2, wrap_spaces := 4, column_limit := 40,
    over_column_limit_penalty := 100, line_break_penalty := 2 }

def c5toks : List PreFormatToken := [{ width := 19 }]

def c5uw : UnwrappedLine := { tokensBegin := 0, tokensEnd := 1 }

def c2F1 : LayoutFunction :=
  [ { column := 0, layout := .node (LayoutItem.comp .line 0 false) [],
      span := 1, intercept := 50, gradient := 0 } ]

def c2F2 : LayoutFunction :=
  [ { column := 0, layout := .node (LayoutItem.comp .line 1 false) [],
      span := 2, intercept := 50, gradient := 0 } ]

/-- The layout function of an empty line (rendered width 0) under a
40-column style: segments at columns 0 and 40, the second with the
overflow gradient. -/
def c3lf : LayoutFunction :=
  LayoutFunctionFactory.Line c5style [] { tokensBegin := 0, tokensEnd := 0 }

/-- Sum of the children's evaluated costs at a column. -/
def sumCosts (lfs : List LayoutFunction) (c : Int) : Int :=
  (lfs.map (fun lf => lf.costAt c)).sum

/-- Sum of the children's gradients at a column. -/
def sumGradients (lfs : List LayoutFunction) (c : Int) : Int :=
  (lfs.map (fun lf => lf.gradientAt c)).sum

def c6toks : List PreFormatToken := [{ width := 19 }, { width := 10 }]

def c6A : LayoutFunction :=
  LayoutFunctionFactory.Line c5style c6toks { tokensBegin := 0, tokensEnd := 1 }

def c6B : LayoutFunction :=
  LayoutFunctionFactory.Line c5style c6toks { tokensBegin := 1, tokensEnd := 2 }

def c6out : LayoutFunction :=
  (LayoutFunctionFactory.Stack c5style [c6A, c6B]).getD []

mutual

/-- No node of the tree has a child of the same layout type with zero
indentation (the property the adopt-and-flatten helper is meant to
guarantee). -/
def flattenInvariant : LayoutTree → Bool
  | .node item ch => flattenInvariantList item.type ch
termination_by structural t => t

/-- Child-list form of `flattenInvariant`, relative to the parent's
type. -/
def flattenInvariantList : LayoutType → List LayoutTree → Bool
  | _, [] => true
  | pt, c :: cs =>
      (!(decide (c.item.type = pt) &&
         decide (c.item.indentationSpaces = 0))) &&
      flattenInvariant c && flattenInvariantList pt cs
termination_by structural _ l => l

end
/-- The layout trees produced by the combinator factory: Line leaves,
Juxtaposition nodes adopting two produced sublayouts, Stack nodes adopting
two or more produced sublayouts, and Indent results adding non-negative
indentation to a produced tree's root.  (Choice only copies layouts and
produces nothing new.) -/
inductive ProducedLayout : LayoutTree → Prop where
  | line (item : LayoutItem) :
      item.type = .line → ProducedLayout (.node item [])
  | juxtaposed (l r : LayoutTree) (sp : Int) (mw : Bool) :
      ProducedLayout l → ProducedLayout r →
      ProducedLayout
        (AdoptLayoutAndFlattenIfSameType r
          (AdoptLayoutAndFlattenIfSameType l
            (.node (LayoutItem.comp .juxtaposition sp mw) [])))
  | stacked (ts : List LayoutTree) (sp : Int) (mw : Bool) :
      2 ≤ ts.length → (∀ t ∈ ts, ProducedLayout t) →
      ProducedLayout
        (ts.foldl (fun acc t => AdoptLayoutAndFlattenIfSameType t acc)
          (.node (LayoutItem.comp .stack sp mw) []))
  | indented (t : LayoutTree) (k : Int) :
      ProducedLayout t → 0 ≤ k → ProducedLayout (t.addRootIndent k)

def c7line : LayoutTree := .node (LayoutItem.comp .line 0 false) []

def c7sample : LayoutTree :=
  AdoptLayoutAndFlattenIfSameType c7line
    (AdoptLayoutAndFlattenIfSameType c7line
      (.node (LayoutItem.comp .juxtaposition 0 false) []))

/-- An internal node stamped `alreadyFormatted` — a policy the driver does
not handle. -/
def c8tree : TokenPartitionTree :=
  .node { indentationSpaces := 0, partitionPolicy := .alreadyFormatted,
          tokensBegin := 0, tokensEnd := 1 }
    [.node { indentationSpaces := 0, partitionPolicy := .uninitialized,
             tokensBegin := 0, tokensEnd := 1 } []]

/-- Every flat line in the list is stamped `alreadyFormatted`. -/
def allAlreadyFormatted (lines : List UnwrappedLine) : Prop :=
  ∀ l ∈ lines, l.partitionPolicy = .alreadyFormatted

/-- A single-line layout: the smallest successful reconstructor run. -/
def c1tree : LayoutTree :=
  .node { type := .line, tokensBegin := 0, tokensEnd := 1 } []

def c1toks : List PreFormatToken := [{ width := 3 }]

def c1pair : ReplacedNode × List PreFormatToken :=
  (ReplaceTokenPartitionTreeNode
      (trTraverse c1toks c1tree 0 { lines := [], active := false }).lines
      0 c1toks).getD ⟨⟨default, []⟩, []⟩

def c4toks : List PreFormatToken :=
  [{ width := 1 }, { width := 2 },
   { width := 3, breakDecision := .preserve }]

def c4lines : List UnwrappedLine :=
  [{ tokensBegin := 0, tokensEnd := 2 }, { tokensBegin := 2, tokensEnd := 3 }]

def c4pair : ReplacedNode × List PreFormatToken :=
  (ReplaceTokenPartitionTreeNode c4lines 0 c4toks).getD ⟨⟨default, []⟩, []⟩

mutual

/-- A layout tree is free of childless composite nodes: every
juxtaposition or stack node has at least one child. -/
def noEmptyComposite : LayoutTree → Bool
  | .node item ch =>
    if item.type = .line then true
    else !ch.isEmpty && noEmptyCompositeList ch
termination_by structural t => t

/-- List version of `noEmptyComposite`. -/
def noEmptyCompositeList : List LayoutTree → Bool
  | [] => true
  | t :: ts => noEmptyComposite t && noEmptyCompositeList ts
termination_by structural l => l

end
def c9toks : List PreFormatToken :=
  [{ width := 6 }, { width := 7 }, { width := 8 }]

def c9lineA : LayoutTree :=
  .node { type := .line, tokensBegin := 0, tokensEnd := 1 } []

def c9lineB : LayoutTree :=
  .node { type := .line, tokensBegin := 1, tokensEnd := 2 } []

def c9lineC : LayoutTree :=
  .node { type := .line, tokensBegin := 2, tokensEnd := 3 } []

/-- A childless stack: traversing it deactivates the current line. -/
def c9empty : LayoutTree := .node { type := .stack } []

def c9inner : LayoutTree := .node { type := .stack } [c9lineB, c9empty]

/-- A juxtaposition carrying relative indentation 5, visited while a line
is active. -/
def c9mid : LayoutTree :=
  .node { type := .juxtaposition, indentationSpaces := 5 }
    [c9inner, c9lineC]

/-- The same subtree with the relative indentation zeroed. -/
def c9mid0 : LayoutTree :=
  .node { type := .juxtaposition, indentationSpaces := 0 }
    [c9inner, c9lineC]

def c9tree : LayoutTree :=
  .node { type := .juxtaposition } [c9lineA, c9mid]

def c9tree0 : LayoutTree :=
  .node { type := .juxtaposition } [c9lineA, c9mid0]

def c9item : LayoutItem := { type := .juxtaposition, indentationSpaces := 4 }

def c9st : TRState :=
  { lines := [{ tokensBegin := 0, tokensEnd := 1 }], active := true }

theorem lowerBoundIndex_le_length (lf : LayoutFunction) (c : Int) :
    lowerBoundIndex lf c ≤ lf.length :=
  (List.takeWhile_sublist _).length_le

theorem lowerBoundIndex_cons_pos {s : LayoutFunctionSegment}
    {rest : List LayoutFunctionSegment} {c : Int} (h : s.column ≤ c) :
    lowerBoundIndex (s :: rest) c = lowerBoundIndex rest c + 1 := by
  simp [lowerBoundIndex, List.takeWhile_cons, h, Nat.add_comm]

/-! ## C10: the at-or-to-the-left-of lookup is safe -/

/-- C10: for every column `c ≥ 0`, the at-or-to-the-left-of lookup on an
empty layout function returns the end iterator rather than failing, and on
a non-empty layout function whose first segment has column 0 it returns a
valid segment index, never a past-the-start result. -/
theorem atOrToTheLeftOf_safe (lf : LayoutFunction) (c : Int) (hc : 0 ≤ c) :
    (lf = [] → lf.AtOrToTheLeftOf c = .endIt) ∧
    (∀ s rest, lf = s :: rest → s.column = 0 →
      ∃ i, lf.AtOrToTheLeftOf c = .seg i ∧ i < lf.length) := by
  constructor
  · rintro rfl
    rfl
  · rintro s rest rfl h0
    have hle : s.column ≤ c := by omega
    have hpos := @lowerBoundIndex_cons_pos s rest c hle
    refine ⟨lowerBoundIndex rest c, ?_, ?_⟩
    · simp [LayoutFunction.AtOrToTheLeftOf, hpos]
    · have := lowerBoundIndex_le_length rest c
      simp only [List.length_cons]
      omega

theorem atOrToTheLeftOf_safe_witness :
    (0 : Int) ≤ 3 ∧
    (LayoutFunction.AtOrToTheLeftOf [] 3 = .endIt) ∧
    (∃ i, LayoutFunction.AtOrToTheLeftOf c10sample 3 = .seg i ∧
      i < c10sample.length) := by
  refine ⟨by decide, (atOrToTheLeftOf_safe [] 3 (by decide)).1 rfl, ?_⟩
  exact (atOrToTheLeftOf_safe c10sample 3 (by decide)).2 _ _ rfl rfl

/-! ## C5: shape of the Line combinator's output -/

/-- C5: for an unwrapped line of rendered width `w` under a style with
column limit `C` and overflow penalty `p`, the Line combinator returns,
when `w < C`, exactly the two segments
`{column 0, span w, intercept 0, gradient 0}` and
`{column C - w, span w, intercept 0, gradient p}`, and otherwise exactly
the single segment `{column 0, span w, intercept (w - C) * p,
gradient p}`. -/
theorem Line_segments (style : BasicFormatStyle)
    (toks : List PreFormatToken) (uwline : UnwrappedLine) :
    (uwline.length toks < style.column_limit →
      LayoutFunctionFactory.Line style toks uwline =
        [ { column := 0,
            layout := .node (LayoutItem.ofUnwrappedLine toks uwline) [],
            span := uwline.length toks, intercept := 0, gradient := 0 },
          { column := style.column_limit - uwline.length toks,
            layout := .node (LayoutItem.ofUnwrappedLine toks uwline) [],
            span := uwline.length toks, intercept := 0,
            gradient := style.over_column_limit_penalty } ]) ∧
    (style.column_limit ≤ uwline.length toks →
      LayoutFunctionFactory.Line style toks uwline =
        [ { column := 0,
            layout := .node (LayoutItem.ofUnwrappedLine toks uwline) [],
            span := uwline.length toks,
            intercept := (uwline.length toks - style.column_limit) *
              style.over_column_limit_penalty,
            gradient := style.over_column_limit_penalty } ]) := by
  have hspan :
      (LayoutTree.node (LayoutItem.ofUnwrappedLine toks uwline) []).item.length
        = uwline.length toks := rfl
  constructor
  · intro h
    simp [LayoutFunctionFactory.Line, hspan, h]
  · intro h
    simp [LayoutFunctionFactory.Line, hspan, not_lt.mpr h]

theorem Line_segments_witness :
    c5uw.length c5toks < c5style.column_limit ∧
    LayoutFunctionFactory.Line c5style c5toks c5uw =
      [ { column := 0,
          layout := .node (LayoutItem.ofUnwrappedLine c5toks c5uw) [],
          span := c5uw.length c5toks, intercept := 0, gradient := 0 },
        { column := c5style.column_limit - c5uw.length c5toks,
          layout := .node (LayoutItem.ofUnwrappedLine c5toks c5uw) [],
          span := c5uw.length c5toks, intercept := 0,
          gradient := c5style.over_column_limit_penalty } ] :=
  ⟨by decide, (Line_segments c5style c5toks c5uw).1 (by decide)⟩

/-! ## C2: Choice tie-breaking at equal cost and equal gradient

Two single-segment inputs with identical cost curves (intercept 50,
gradient 0) but different spans.  The comparator passed to
`std::min_element` returns true on `a->gradient <= b->gradient`, so each
later tied element replaces the current best and the lookup settles on the
*last* tied input, although the comment above it (and the spec) promise
the earliest one. -/

/-- C2: at the fully tied input (equal cost, equal gradient) the Choice
combinator emits the segment of the *second* input (span 2), not the
earlier-index first input (span 1) that the documented tie-break rule
requires. -/
theorem Choice_tie_break_favors_later_input :
    (LayoutFunctionFactory.Choice [c2F1, c2F2]).map
        (fun out => out.map (fun s => s.span)) = some [2] ∧
    ((2 : Int) = 1 → False) := by
  exact ⟨rfl, by decide⟩

/-! ## Helper lemmas for the Indent analysis -/

theorem takeWhile_length_append {α : Type} (p : α → Bool) (a b : List α)
    (h : ∀ x ∈ a, p x = true) :
    ((a ++ b).takeWhile p).length = a.length + (b.takeWhile p).length := by
  induction a with
  | nil => simp
  | cons x xs ih =>
      have hx : p x = true := h x (by simp)
      have ih2 := ih (fun y hy => h y (by simp [hy]))
      simp only [List.cons_append, List.takeWhile_cons, hx, if_true,
        List.length_cons]
      omega

theorem get?_takeWhile_pred {α : Type} {p : α → Bool} :
    ∀ {l : List α} {j : Nat} {x : α}, (l.takeWhile p).get? j = some x →
      l.get? j = some x ∧ p x = true := by
  intro l
  induction l with
  | nil => intro j x h; simp at h
  | cons a as ih =>
      intro j x h
      by_cases hp : p a
      · rw [List.takeWhile_cons_of_pos hp] at h
        cases j with
        | zero =>
            simp only [List.get?] at h ⊢
            exact ⟨h, by cases h; exact hp⟩
        | succ j2 =>
            simp only [List.get?] at h ⊢
            exact ih h
      · rw [List.takeWhile_cons_of_neg hp] at h
        simp at h

theorem takeWhile_map_length {α β : Type} (f : α → β) (p : β → Bool)
    (q : α → Bool) (h : ∀ a, p (f a) = q a) (l : List α) :
    ((l.map f).takeWhile p).length = (l.takeWhile q).length := by
  induction l with
  | nil => rfl
  | cons a as ih =>
      simp only [List.map_cons, List.takeWhile_cons, h a]
      by_cases hq : q a = true
      · simp [hq, ih]
      · simp [hq]

theorem indentLoop_eq_map (style : BasicFormatStyle) (indent : Int) :
    ∀ (t0 : LayoutFunctionSegment) (trest : List LayoutFunctionSegment)
      (c0 i0 : Int),
      indentLoop style indent (t0 :: trest) c0 i0 =
        mkIndentSegment style indent t0 c0 i0 ::
          trest.map (fun t =>
            mkIndentSegment style indent t t.column (t.column - indent)) := by
  intro t0 trest
  induction trest generalizing t0 with
  | nil => intro c0 i0; rfl
  | cons t1 ts ih =>
      intro c0 i0
      have h1 : indentLoop style indent (t0 :: t1 :: ts) c0 i0 =
          mkIndentSegment style indent t0 c0 i0 ::
            indentLoop style indent (t1 :: ts) t1.column
              (t1.column - indent) := rfl
      rw [h1, ih t1, List.map_cons]

theorem mkIndentSegment_CostAt (style : BasicFormatStyle) (k x c : Int)
    (t : LayoutFunctionSegment) (hc : c < style.column_limit) :
    (mkIndentSegment style k t c (c - k)).CostAt x = t.CostAt (x + k) := by
  have hmax : max (c - style.column_limit) 0 = 0 :=
    max_eq_right (by omega)
  have hif : ¬(0 ≤ c - style.column_limit) := by omega
  simp only [mkIndentSegment, LayoutFunctionSegment.CostAt, hmax, hif,
    if_false]
  ring

/-- C3 (amended): for every non-empty layout function whose first segment
has column 0, every `k ≥ 0` and every column `x ≥ 0` with
`x + k < column_limit`, the Indent combinator succeeds and satisfies
`Indent(F, k).cost_at(x) = F.cost_at(x + k)`; moreover — with no
restriction on the column — every output segment is derived from an input
segment whose span it exceeds by exactly `k` and whose root layout item's
indentation it increases by exactly `k`. -/
theorem Indent_costAt (style : BasicFormatStyle) (lf : LayoutFunction)
    (k x : Int) (s0 : LayoutFunctionSegment)
    (rest0 : List LayoutFunctionSegment) (hlf : lf = s0 :: rest0)
    (h0 : s0.column = 0) (hk : 0 ≤ k) (hx : 0 ≤ x)
    (hxk : x + k < style.column_limit) :
    ∃ out, LayoutFunctionFactory.Indent style lf k = some out ∧
      LayoutFunction.costAt out x = lf.costAt (x + k) ∧
      ∀ so ∈ out, ∃ si ∈ lf, so.span = si.span + k ∧
        so.layout = si.layout.addRootIndent k := by
  have hlfne : lf.isEmpty = false := by rw [hlf]; rfl
  have hs0 : s0.column ≤ k := by rw [h0]; exact hk
  have hipos : 1 ≤ lowerBoundIndex lf k := by
    rw [hlf, lowerBoundIndex_cons_pos hs0]; omega
  obtain ⟨j, hj⟩ : ∃ j, lowerBoundIndex lf k = j + 1 :=
    ⟨lowerBoundIndex lf k - 1, by omega⟩
  have hAtOr : lf.AtOrToTheLeftOf k = .seg j := by
    simp [LayoutFunction.AtOrToTheLeftOf, hlfne, hj]
  have hjlt : j < lf.length := by
    have := lowerBoundIndex_le_length lf k; omega
  have htw_len : (lf.takeWhile (fun s => s.column ≤ k)).length = j + 1 := hj
  have hjlt2 : j < (lf.takeWhile (fun s => s.column ≤ k)).length := by omega
  obtain ⟨t0, htw0⟩ :
      ∃ t0, (lf.takeWhile (fun s => s.column ≤ k)).get? j = some t0 :=
    ⟨_, (List.get?_eq_getElem? _ _).trans (List.getElem?_eq_getElem hjlt2)⟩
  obtain ⟨hget0, hp0b⟩ := get?_takeWhile_pred htw0
  have hp0 : t0.column ≤ k := of_decide_eq_true hp0b
  have hget0e : lf[j]? = some t0 := (List.get?_eq_getElem? lf j) ▸ hget0
  have hgetj : lf[j] = t0 := by
    have := List.getElem?_eq_getElem hjlt
    rw [hget0e] at this
    exact (Option.some.inj this).symm
  have hdropj : lf.drop j = t0 :: lf.drop (j + 1) := by
    rw [List.drop_eq_getElem_cons hjlt, hgetj]
  have hknn : ¬(k < 0) := not_lt.mpr hk
  have hIndent : LayoutFunctionFactory.Indent style lf k =
      some (indentLoop style k (lf.drop j) k 0) := by
    simp [LayoutFunctionFactory.Indent, hlfne, hknn, hAtOr]
  have hout : LayoutFunctionFactory.Indent style lf k =
      some (mkIndentSegment style k t0 k 0 ::
        (lf.drop (j + 1)).map (fun t =>
          mkIndentSegment style k t t.column (t.column - k))) := by
    rw [hIndent, hdropj, indentLoop_eq_map]
  refine ⟨_, hout, ?_, ?_⟩
  · -- cost equality
    have hm :
        lowerBoundIndex ((lf.drop (j + 1)).map (fun t =>
          mkIndentSegment style k t t.column (t.column - k))) x =
        ((lf.drop (j + 1)).takeWhile (fun s => s.column ≤ x + k)).length := by
      unfold lowerBoundIndex
      refine takeWhile_map_length _ _ _ (fun t => ?_) (lf.drop (j + 1))
      show decide (t.column - k ≤ x) = decide (t.column ≤ x + k)
      rw [decide_eq_decide]
      omega
    have hheadle : (mkIndentSegment style k t0 k 0).column ≤ x := hx
    have hlb_out :
        lowerBoundIndex (mkIndentSegment style k t0 k 0 ::
          (lf.drop (j + 1)).map (fun t =>
            mkIndentSegment style k t t.column (t.column - k))) x =
        ((lf.drop (j + 1)).takeWhile (fun s => s.column ≤ x + k)).length
          + 1 := by
      rw [lowerBoundIndex_cons_pos hheadle, hm]
    have hAtOrOut :
        LayoutFunction.AtOrToTheLeftOf (mkIndentSegment style k t0 k 0 ::
          (lf.drop (j + 1)).map (fun t =>
            mkIndentSegment style k t t.column (t.column - k))) x =
        .seg (((lf.drop (j + 1)).takeWhile
          (fun s => s.column ≤ x + k)).length) := by
      simp only [LayoutFunction.AtOrToTheLeftOf, List.isEmpty_cons,
        Bool.false_eq_true, if_false, hlb_out]
    -- input side
    have htake_eq : lf.takeWhile (fun s => s.column ≤ k) = lf.take (j + 1) := by
      have hpre := @List.takeWhile_prefix _ lf
        (fun s => decide (s.column ≤ k))
      rw [List.prefix_iff_eq_take] at hpre
      rw [hpre, htw_len]
    have hsplit : lf = lf.take (j + 1) ++ lf.drop (j + 1) :=
      (List.take_append_drop (j + 1) lf).symm
    have htakeq : ∀ y ∈ lf.take (j + 1), decide (y.column ≤ x + k) = true := by
      intro y hy
      rw [← htake_eq] at hy
      have hyb := List.mem_takeWhile_imp hy
      have hyk : y.column ≤ k := of_decide_eq_true hyb
      exact decide_eq_true (by omega)
    have hlen_take : (lf.take (j + 1)).length = j + 1 := by
      rw [List.length_take]; omega
    have hlb_in : lowerBoundIndex lf (x + k) = (j + 1) +
        ((lf.drop (j + 1)).takeWhile (fun s => s.column ≤ x + k)).length := by
      conv_lhs => rw [hsplit]
      unfold lowerBoundIndex
      rw [takeWhile_length_append _ _ _ htakeq, hlen_take]
    have hAtOrIn : lf.AtOrToTheLeftOf (x + k) = .seg (j +
        ((lf.drop (j + 1)).takeWhile (fun s => s.column ≤ x + k)).length) := by
      have harith : (j + 1) +
          ((lf.drop (j + 1)).takeWhile (fun s => s.column ≤ x + k)).length =
          (j + ((lf.drop (j + 1)).takeWhile
            (fun s => s.column ≤ x + k)).length) + 1 := by omega
      simp [LayoutFunction.AtOrToTheLeftOf, hlfne, hlb_in, harith]
    -- case split on the relative index
    cases hmval : ((lf.drop (j + 1)).takeWhile
        (fun s => s.column ≤ x + k)).length with
    | zero =>
        have hL : LayoutFunction.costAt (mkIndentSegment style k t0 k 0 ::
            (lf.drop (j + 1)).map (fun t =>
              mkIndentSegment style k t t.column (t.column - k))) x =
            (mkIndentSegment style k t0 k 0).CostAt x := by
          rw [LayoutFunction.costAt, LayoutFunction.atOrLeft, hAtOrOut, hmval]
          rfl
        have hR : lf.costAt (x + k) = t0.CostAt (x + k) := by
          rw [LayoutFunction.costAt, LayoutFunction.atOrLeft, hAtOrIn, hmval]
          simp only [Nat.add_zero, List.get?_eq_getElem?, hget0e]
        rw [hL, hR]
        have hzero : (0 : Int) = k - k := by ring
        rw [hzero]
        exact mkIndentSegment_CostAt style k x k t0 (by omega)
    | succ m2 =>
        have hm2lt : m2 < ((lf.drop (j + 1)).takeWhile
            (fun s => s.column ≤ x + k)).length := by omega
        obtain ⟨t, htwt⟩ : ∃ t, ((lf.drop (j + 1)).takeWhile
            (fun s => s.column ≤ x + k)).get? m2 = some t :=
          ⟨_, (List.get?_eq_getElem? _ _).trans
            (List.getElem?_eq_getElem hm2lt)⟩
        obtain ⟨hBget, hqb⟩ := get?_takeWhile_pred htwt
        have hq : t.column ≤ x + k := of_decide_eq_true hqb
        have hL : LayoutFunction.costAt (mkIndentSegment style k t0 k 0 ::
            (lf.drop (j + 1)).map (fun t =>
              mkIndentSegment style k t t.column (t.column - k))) x =
            (mkIndentSegment style k t t.column (t.column - k)).CostAt x := by
          rw [LayoutFunction.costAt, LayoutFunction.atOrLeft, hAtOrOut, hmval]
          have : ((lf.drop (j + 1)).map (fun t =>
              mkIndentSegment style k t t.column (t.column - k))).get?
              m2 = some (mkIndentSegment style k t t.column
                (t.column - k)) := by
            rw [List.get?_eq_getElem?, List.getElem?_map,
              ← List.get?_eq_getElem?, hBget]
            rfl
          simp only [List.get?]
          rw [this]
        have hR : lf.costAt (x + k) = t.CostAt (x + k) := by
          rw [LayoutFunction.costAt, LayoutFunction.atOrLeft, hAtOrIn, hmval]
          have hgin : lf[j + (m2 + 1)]? = some t := by
            conv_lhs => rw [hsplit]
            rw [List.getElem?_append_right (by rw [hlen_take]; omega)]
            have hidx : j + (m2 + 1) - (lf.take (j + 1)).length = m2 := by
              rw [hlen_take]; omega
            rw [hidx, ← List.get?_eq_getElem?, hBget]
          simp only [List.get?_eq_getElem?, hgin]
        rw [hL, hR]
        exact mkIndentSegment_CostAt style k x t.column t (by omega)
  · -- spans and indentation
    intro so hso
    rcases List.mem_cons.mp hso with hhead | htail
    · refine ⟨t0, List.getElem?_mem hget0e, ?_, ?_⟩
      · rw [hhead]; simp [mkIndentSegment]; ring
      · rw [hhead]; rfl
    · obtain ⟨t, htB, hft⟩ := List.mem_map.mp htail
      refine ⟨t, List.drop_subset _ _ htB, ?_, ?_⟩
      · rw [← hft]; simp [mkIndentSegment]; ring
      · rw [← hft]; rfl

/-- C3 counterexample: `Indent(F, 0).cost_at(41) = 0` but
`F.cost_at(41 + 0) = 100` for the non-empty combinator-produced layout
function `c3lf`, refuting `Indent(F, k).cost_at(x) = F.cost_at(x + k)` at
`x = 41, k = 0`: at the knot at the column limit the implementation
subtracts the overflow component from the gradient and intercept. -/
theorem Indent_costAt_cex :
    (c3lf.map (fun s => s.column) = [0, 40]) ∧
    (LayoutFunctionFactory.Indent c5style c3lf 0).map
        (fun out => LayoutFunction.costAt out 41) = some 0 ∧
    LayoutFunction.costAt c3lf (41 + 0) = 100 ∧
    ((0 : Int) = 100 → False) := by
  refine ⟨by decide, by decide, by decide, by decide⟩

theorem Indent_costAt_witness :
    ∃ out, LayoutFunctionFactory.Indent c5style
        (LayoutFunctionFactory.Line c5style c5toks c5uw) 4 = some out ∧
      LayoutFunction.costAt out 10 =
        LayoutFunction.costAt
          (LayoutFunctionFactory.Line c5style c5toks c5uw) (10 + 4) ∧
      ∀ so ∈ out, ∃ si ∈ LayoutFunctionFactory.Line c5style c5toks c5uw,
        so.span = si.span + 4 ∧ so.layout = si.layout.addRootIndent 4 :=
  Indent_costAt c5style _ 4 10 _ _ rfl rfl (by decide) (by decide) (by decide)

/-! ## Helper lemmas for the Stack analysis -/

theorem adopt_item (source destination : LayoutTree) :
    (AdoptLayoutAndFlattenIfSameType source destination).item =
      destination.item := by
  unfold AdoptLayoutAndFlattenIfSameType
  split <;> rfl

theorem stackSegment_fold (c : Int) :
    ∀ (lfs : List LayoutFunction) (init seg : LayoutFunctionSegment),
      lfs.foldlM (fun seg lf => do
        let s ← lf.atOrLeft c
        pure { seg with
                 intercept := seg.intercept + s.CostAt c
                 gradient := seg.gradient + s.gradient
                 layout := AdoptLayoutAndFlattenIfSameType s.layout
                   seg.layout }) init = some seg →
      seg.column = init.column ∧ seg.span = init.span ∧
      seg.intercept = init.intercept + sumCosts lfs c ∧
      seg.gradient = init.gradient + sumGradients lfs c ∧
      seg.layout.item = init.layout.item := by
  intro lfs
  induction lfs with
  | nil =>
      intro init seg h
      simp only [List.foldlM_nil, pure, Option.some.injEq] at h
      subst h
      simp [sumCosts, sumGradients]
  | cons lf rest ih =>
      intro init seg h
      rw [List.foldlM_cons] at h
      cases hs : lf.atOrLeft c with
      | none => rw [hs] at h; simp at h
      | some s =>
          rw [hs] at h
          simp only [Option.bind_eq_bind, Option.some_bind] at h
          obtain ⟨h1, h2, h3, h4, h5⟩ := ih _ _ h
          have hs2 : lf.atOrLeft c = some s := hs
          have hcost : lf.costAt c = s.CostAt c := by
            rw [LayoutFunction.costAt, hs2]
          have hgrad : lf.gradientAt c = s.gradient := by
            rw [LayoutFunction.gradientAt, hs2]
          refine ⟨h1, h2, ?_, ?_, ?_⟩
          · rw [h3]
            simp only [sumCosts, List.map_cons, List.sum_cons, hcost]
            ring
          · rw [h4]
            simp only [sumGradients, List.map_cons, List.sum_cons, hgrad]
            ring
          · rw [h5, adopt_item]

theorem stackSegment_spec (lfs : List LayoutFunction) (sb : Int) (mw : Bool)
    (sp pen c : Int) (seg : LayoutFunctionSegment)
    (h : stackSegment lfs sb mw sp pen c = some seg) :
    seg.column = c ∧ seg.span = sp ∧
    seg.intercept = pen + sumCosts lfs c ∧
    seg.gradient = sumGradients lfs c ∧
    seg.layout.item = LayoutItem.comp .stack sb mw := by
  obtain ⟨h1, h2, h3, h4, h5⟩ := stackSegment_fold c lfs _ seg h
  exact ⟨h1, h2, h3, by rw [h4]; ring, h5⟩

theorem stackLoop_spec (style : BasicFormatStyle) (lfs : List LayoutFunction)
    (sb : Int) (mw : Bool) (sp pen : Int) :
    ∀ (fuel : Nat) (c : Int) (out : LayoutFunction),
      stackLoop style lfs sb mw sp pen fuel c = some out →
      ∀ s ∈ out, s.span = sp ∧
        s.intercept = pen + sumCosts lfs s.column ∧
        s.gradient = sumGradients lfs s.column ∧
        s.layout.item = LayoutItem.comp .stack sb mw := by
  intro fuel
  induction fuel with
  | zero => intro c out h; exact absurd h (by simp [stackLoop])
  | succ n ih =>
      intro c out h
      rw [stackLoop] at h
      cases hseg : stackSegment lfs sb mw sp pen c with
      | none => rw [hseg] at h; simp at h
      | some seg =>
          rw [hseg] at h
          cases hnc : stackNextColumn lfs c with
          | none => rw [hnc] at h; simp at h
          | some c2 =>
              rw [hnc] at h
              simp only [Option.bind_eq_bind, Option.some_bind] at h
              obtain ⟨hcol, hspan, hint, hgrad, hitem⟩ :=
                stackSegment_spec lfs sb mw sp pen c seg hseg
              by_cases hcc : c2 < kInfinity
              · rw [if_pos hcc] at h
                cases hrec : stackLoop style lfs sb mw sp pen n c2 with
                | none => rw [hrec] at h; simp at h
                | some out2 =>
                    rw [hrec] at h
                    simp only [Option.map_some', Option.some.injEq] at h
                    subst h
                    intro s hs
                    rcases List.mem_cons.mp hs with rfl | hs2
                    · exact ⟨hspan, by rw [hcol]; exact hint,
                        by rw [hcol]; exact hgrad, hitem⟩
                    · exact ih c2 out2 hrec s hs2
              · rw [if_neg hcc] at h
                simp only [pure, Option.some.injEq] at h
                subst h
                intro s hs
                rcases List.mem_cons.mp hs with rfl | hs2
                · exact ⟨hspan, by rw [hcol]; exact hint,
                    by rw [hcol]; exact hgrad, hitem⟩
                · simp at hs2

/-- C6: Stack identity laws and per-segment shape: the empty stack is the
empty function and a single-child stack is that child unchanged; for two
or more children, every segment of the result has cost equal to the sum of
the children's costs at the segment's column plus exactly `(n - 1)` times
the line-break penalty, gradient equal to the sum of the children's
gradients there, span equal to the last child's (first-segment) span, and
`spaces_before` / `must_wrap` taken from the first child's (first-segment)
root layout item. -/
theorem Stack_segments (style : BasicFormatStyle) :
    (LayoutFunctionFactory.Stack style [] = some []) ∧
    (∀ f, LayoutFunctionFactory.Stack style [f] = some f) ∧
    (∀ lfs out, 2 ≤ lfs.length →
      LayoutFunctionFactory.Stack style lfs = some out →
      ∀ s ∈ out,
        s.intercept = ((lfs.length : Int) - 1) * style.line_break_penalty +
          sumCosts lfs s.column ∧
        s.gradient = sumGradients lfs s.column ∧
        (∀ lastlf l0, lfs.getLast? = some lastlf →
          lastlf.get? 0 = some l0 → s.span = l0.span) ∧
        (∀ first f0, lfs.head? = some first → first.get? 0 = some f0 →
          s.layout.item.spacesBefore = f0.layout.item.spacesBefore ∧
          s.layout.item.mustWrap = f0.layout.item.mustWrap)) := by
  refine ⟨rfl, fun f => rfl, ?_⟩
  intro lfs out hlen h
  match lfs, hlen with
  | a :: b :: rest, _ =>
    have hcore : stackCore style (a :: b :: rest) = some out := h
    rw [stackCore] at hcore
    simp only [List.head?_cons, Option.bind_eq_bind, Option.some_bind]
      at hcore
    cases hf0 : a.get? 0 with
    | none => rw [hf0] at hcore; simp at hcore
    | some f0 =>
        rw [hf0] at hcore
        simp only [Option.some_bind] at hcore
        cases hlast : (a :: b :: rest).getLast? with
        | none => rw [hlast] at hcore; simp at hcore
        | some lastlf =>
            rw [hlast] at hcore
            simp only [Option.some_bind] at hcore
            cases hl0 : lastlf.get? 0 with
            | none => rw [hl0] at hcore; simp at hcore
            | some l0 =>
                rw [hl0] at hcore
                simp only [Option.some_bind] at hcore
                intro s hs
                obtain ⟨hspan, hint, hgrad, hitem⟩ :=
                  stackLoop_spec style (a :: b :: rest) _ _ _ _ _ _ _
                    hcore s hs
                refine ⟨hint, hgrad, ?_, ?_⟩
                · intro lastlf2 l02 hlast2 hl02
                  have h1 : lastlf = lastlf2 := Option.some.inj hlast2
                  subst h1
                  have h2 := Option.some.inj (hl0.symm.trans hl02)
                  subst h2
                  exact hspan
                · intro first2 f02 hfirst2 hf02
                  have h1 : a = first2 :=
                    Option.some.inj ((rfl : (a :: b :: rest).head? =
                      some a).symm.trans hfirst2)
                  subst h1
                  have h2 := Option.some.inj (hf0.symm.trans hf02)
                  subst h2
                  rw [hitem]
                  exact ⟨rfl, rfl⟩

theorem Stack_segments_witness :
    2 ≤ ([c6A, c6B] : List LayoutFunction).length ∧
    LayoutFunctionFactory.Stack c5style [c6A, c6B] = some c6out ∧
    ∀ s ∈ c6out,
      s.intercept = ((([c6A, c6B] : List LayoutFunction).length : Int) - 1) *
        c5style.line_break_penalty + sumCosts [c6A, c6B] s.column ∧
      s.gradient = sumGradients [c6A, c6B] s.column ∧
      (∀ lastlf l0, ([c6A, c6B] : List LayoutFunction).getLast? = some lastlf →
        lastlf.get? 0 = some l0 → s.span = l0.span) ∧
      (∀ first f0, ([c6A, c6B] : List LayoutFunction).head? = some first →
        first.get? 0 = some f0 →
        s.layout.item.spacesBefore = f0.layout.item.spacesBefore ∧
        s.layout.item.mustWrap = f0.layout.item.mustWrap) :=
  ⟨by decide, rfl,
    (Stack_segments c5style).2.2 [c6A, c6B] c6out (by decide) rfl⟩

/-! ## C7: same-type zero-indent flattening invariant -/

theorem adopt_children (source destination : LayoutTree) :
    (AdoptLayoutAndFlattenIfSameType source destination).children =
      destination.children ++
        (if ¬source.isLeaf ∧ source.item.type = destination.item.type ∧
            source.item.indentationSpaces = 0 then
          source.children
        else [source]) := by
  unfold AdoptLayoutAndFlattenIfSameType
  split <;> rfl

theorem adopt_children_ne_nil (source destination : LayoutTree) :
    (AdoptLayoutAndFlattenIfSameType source destination).children ≠ [] := by
  rw [adopt_children]
  split
  · next h =>
      have hs : source.children ≠ [] := by
        intro hnil
        exact h.1 (by simp [LayoutTree.isLeaf, hnil])
      simp [hs]
  · simp

theorem produced_children_ne_nil (t : LayoutTree) (h : ProducedLayout t)
    (htype : t.item.type ≠ .line) : t.children ≠ [] := by
  induction h with
  | line item hline => exact absurd hline htype
  | juxtaposed l r sp mw hl hr ihl ihr => exact adopt_children_ne_nil _ _
  | stacked ts sp mw hlen hts ih =>
      match ts, hlen with
      | t1 :: ts2, _ =>
          rw [List.foldl_cons]
          have : ∀ (base : LayoutTree) (rest : List LayoutTree),
              base.children ≠ [] →
              (rest.foldl (fun acc t =>
                AdoptLayoutAndFlattenIfSameType t acc) base).children ≠ [] := by
            intro base rest
            induction rest generalizing base with
            | nil => intro hb; exact hb
            | cons c cs ihc =>
                intro hb
                rw [List.foldl_cons]
                exact ihc _ (adopt_children_ne_nil _ _)
          exact this _ _ (adopt_children_ne_nil _ _)
  | indented t2 k ht2 hk ih =>
      cases t2 with
      | node item ch =>
          have : (LayoutTree.node item ch).item.type ≠ .line := htype
          exact ih this

theorem flattenInvariantList_append (pt : LayoutType)
    (xs ys : List LayoutTree) :
    flattenInvariantList pt (xs ++ ys) =
      (flattenInvariantList pt xs && flattenInvariantList pt ys) := by
  induction xs with
  | nil => simp [flattenInvariantList]
  | cons c cs ih =>
      show ((!(decide (c.item.type = pt) &&
          decide (c.item.indentationSpaces = 0))) &&
          flattenInvariant c && flattenInvariantList pt (cs ++ ys)) = _
      rw [ih, ← Bool.and_assoc]
      rfl

theorem flattenInvariant_adoptAux (sitem : LayoutItem)
    (sch : List LayoutTree) (ditem : LayoutItem) (dch : List LayoutTree)
    (hsp : ProducedLayout (.node sitem sch))
    (hsi : flattenInvariant (.node sitem sch) = true)
    (hdt : ditem.type ≠ .line)
    (hd : flattenInvariant (.node ditem dch) = true) :
    flattenInvariant (AdoptLayoutAndFlattenIfSameType (.node sitem sch)
      (.node ditem dch)) = true := by
  have hsi2 : flattenInvariantList sitem.type sch = true := hsi
  have hd2 : flattenInvariantList ditem.type dch = true := hd
  unfold AdoptLayoutAndFlattenIfSameType
  by_cases hcond : ¬(LayoutTree.node sitem sch).isLeaf = true ∧
      (LayoutTree.node sitem sch).item.type =
        (LayoutTree.node ditem dch).item.type ∧
      (LayoutTree.node sitem sch).item.indentationSpaces = 0
  · rw [if_pos hcond]
    show flattenInvariantList ditem.type (dch ++ sch) = true
    rw [flattenInvariantList_append, hd2]
    have htype : sitem.type = ditem.type := hcond.2.1
    rw [← htype, hsi2]
    rfl
  · rw [if_neg hcond]
    show flattenInvariantList ditem.type
      (dch ++ [LayoutTree.node sitem sch]) = true
    rw [flattenInvariantList_append, hd2]
    have hncond : ¬(sitem.type = ditem.type ∧
        sitem.indentationSpaces = 0) := by
      rintro ⟨ht, hi⟩
      apply hcond
      refine ⟨?_, ht, hi⟩
      have hne : sch ≠ [] :=
        produced_children_ne_nil _ hsp (by show sitem.type ≠ _; rw [ht]; exact hdt)
      show ¬sch.isEmpty = true
      simp [hne]
    have hb : (decide (sitem.type = ditem.type) &&
        decide (sitem.indentationSpaces = 0)) = false := by
      by_cases h1 : sitem.type = ditem.type
      · have h2 : ¬sitem.indentationSpaces = 0 := fun h2 => hncond ⟨h1, h2⟩
        simp [h2]
      · simp [h1]
    have hfin : flattenInvariantList ditem.type
        [LayoutTree.node sitem sch] = true := by
      show ((!(decide (sitem.type = ditem.type) &&
          decide (sitem.indentationSpaces = 0))) &&
          flattenInvariant (LayoutTree.node sitem sch) &&
          flattenInvariantList ditem.type []) = true
      rw [hb, hsi]
      rfl
    rw [hfin]
    rfl

theorem flattenInvariant_adopt (source destination : LayoutTree)
    (hsp : ProducedLayout source)
    (hsi : flattenInvariant source = true)
    (hdt : destination.item.type ≠ .line)
    (hd : flattenInvariant destination = true) :
    flattenInvariant (AdoptLayoutAndFlattenIfSameType source destination)
      = true := by
  cases source with
  | node sitem sch =>
      cases destination with
      | node ditem dch =>
          exact flattenInvariant_adoptAux sitem sch ditem dch hsp hsi hdt hd

theorem flattenInvariant_of_produced (t : LayoutTree)
    (h : ProducedLayout t) : flattenInvariant t = true := by
  induction h with
  | line item hline => rfl
  | juxtaposed l r sp mw hl hr ihl ihr =>
      have hbase : flattenInvariant
          (LayoutTree.node (LayoutItem.comp .juxtaposition sp mw) [])
          = true := rfl
      have h1 := flattenInvariant_adopt l
        (.node (LayoutItem.comp .juxtaposition sp mw) []) hl ihl
        (by intro hc; cases hc) hbase
      refine flattenInvariant_adopt r _ hr ihr ?_ h1
      rw [adopt_item]
      intro hc; cases hc
  | stacked ts sp mw hlen hts ih =>
      have haux : ∀ (rest : List LayoutTree) (base : LayoutTree),
          (∀ t2 ∈ rest, ProducedLayout t2) →
          (∀ t2 ∈ rest, flattenInvariant t2 = true) →
          base.item.type = .stack →
          flattenInvariant base = true →
          flattenInvariant (rest.foldl (fun acc t2 =>
            AdoptLayoutAndFlattenIfSameType t2 acc) base) = true := by
        intro rest
        induction rest with
        | nil => intro base _ _ _ hb; exact hb
        | cons c cs ihc =>
            intro base hp hi htype hb
            rw [List.foldl_cons]
            refine ihc _ (fun t2 ht2 => hp t2 (by simp [ht2]))
              (fun t2 ht2 => hi t2 (by simp [ht2])) ?_ ?_
            · rw [adopt_item]; exact htype
            · exact flattenInvariant_adopt c base (hp c (by simp))
                (hi c (by simp)) (by rw [htype]; intro hc; cases hc) hb
      exact haux ts _ hts ih rfl rfl
  | indented t2 k ht2 hk ih =>
      cases t2 with
      | node item ch => exact ih

/-- C7: every layout tree produced by the combinators satisfies the
flattening invariant: no node has a Stack child of a Stack or a
Juxtaposition child of a Juxtaposition (nor any same-type child) at zero
indentation, because a same-type zero-indent sublayout's children are
inlined at adoption. -/
theorem produced_no_same_type_zero_indent_child (t : LayoutTree)
    (h : ProducedLayout t) : flattenInvariant t = true :=
  flattenInvariant_of_produced t h

theorem produced_no_same_type_zero_indent_child_witness :
    flattenInvariant c7sample = true :=
  produced_no_same_type_zero_indent_child c7sample
    (ProducedLayout.juxtaposed c7line c7line 0 false
      (ProducedLayout.line _ rfl) (ProducedLayout.line _ rfl))

/-! ## C8: the driver halts fatally on contract violations -/

mutual

/-- Helper (mutual with the forest version): a contract violation
anywhere in a partition tree makes the driver traversal fatal. -/
theorem fatalOnViolationTree (style : BasicFormatStyle)
    (toks : List PreFormatToken) :
    ∀ t, hasContractViolation t = true → TraverseTree style toks t = none
  | .node v ch, h => by
      rw [hasContractViolation] at h
      rw [TraverseTree.eq_def]
      dsimp only
      by_cases hch : ch.isEmpty
      · rw [if_pos hch] at h; cases h
      · rw [if_neg hch] at h
        rw [if_neg hch]
        cases hp : v.partitionPolicy with
        | optimalFunctionCallLayout =>
            rw [hp] at h
            have h2 : (decide (ch.length ≠ 2) || anyContractViolation ch)
                = true := h
            match ch, hch, h2 with
            | [], hch, h2 => exact absurd rfl hch
            | [a], hch, h2 => rfl
            | a :: b :: c :: rest, hch, h2 => rfl
            | [a, b], hch, h2 =>
                have hany : hasContractViolation a = true ∨
                    hasContractViolation b = true := by
                  simpa [anyContractViolation] using h2
                dsimp only
                by_cases ha : hasContractViolation a = true
                · rw [fatalOnViolationTree style toks a ha]
                  rfl
                · have hb : hasContractViolation b = true := by
                    rcases hany with h3 | h3
                    · exact absurd h3 ha
                    · exact h3
                  cases hta : TraverseTree style toks a with
                  | none => rfl
                  | some header =>
                      rw [fatalOnViolationTree style toks b hb]
                      rfl
        | appendFittingSubPartitions =>
            rw [hp] at h
            have h2 : anyContractViolation ch = true := h
            dsimp only
            rw [fatalOnViolationForest style toks ch h2]
            rfl
        | fitOnLineElseExpand =>
            rw [hp] at h
            have h2 : anyContractViolation ch = true := h
            dsimp only
            rw [fatalOnViolationForest style toks ch h2]
            rfl
        | alwaysExpand =>
            rw [hp] at h
            have h2 : anyContractViolation ch = true := h
            dsimp only
            rw [fatalOnViolationForest style toks ch h2]
            rfl
        | tabularAlignment =>
            rw [hp] at h
            have h2 : anyContractViolation ch = true := h
            dsimp only
            rw [fatalOnViolationForest style toks ch h2]
            rfl
        | uninitialized => rfl
        | alreadyFormatted => rfl

/-- Forest version: a violation below any child makes the children
traversal fatal. -/
theorem fatalOnViolationForest (style : BasicFormatStyle)
    (toks : List PreFormatToken) :
    ∀ ts, anyContractViolation ts = true →
      TraverseForest style toks ts = none
  | t :: ts, h => by
      rw [anyContractViolation] at h
      by_cases ht : hasContractViolation t = true
      · rw [TraverseForest, fatalOnViolationTree style toks t ht]
        rfl
      · have h2 : hasContractViolation t = true ∨
            anyContractViolation ts = true := by simpa using h
        have hts : anyContractViolation ts = true := by
          rcases h2 with h3 | h3
          · exact absurd h3 ht
          · exact h3
        rw [TraverseForest]
        cases htt : TraverseTree style toks t with
        | none => rfl
        | some lf =>
            rw [fatalOnViolationForest style toks ts hts]
            rfl

end

/-- C8: whenever a partition tree contains an internal node whose policy
is outside the handled set `{optimalFunctionCallLayout,
fitOnLineElseExpand, appendFittingSubPartitions, alwaysExpand,
tabularAlignment}`, or an internal `optimalFunctionCallLayout` node with
a child count different from two, the driver halts fatally (modelled as
`none`) and never produces a layout function. -/
theorem TraverseTree_fatal_on_violation (style : BasicFormatStyle)
    (toks : List PreFormatToken) (t : TokenPartitionTree)
    (h : hasContractViolation t = true) :
    TraverseTree style toks t = none :=
  fatalOnViolationTree style toks t h

theorem TraverseTree_fatal_on_violation_witness :
    hasContractViolation c8tree = true ∧
      TraverseTree c5style c5toks c8tree = none :=
  ⟨rfl, TraverseTree_fatal_on_violation c5style c5toks c8tree rfl⟩

/-! ## C1: the partition node's policy after replacement -/

theorem extendLast_policy :
    ∀ (lines : List UnwrappedLine) (e : Nat),
      allAlreadyFormatted lines → allAlreadyFormatted (extendLast lines e)
  | [], _, h => h
  | [l], e, h => by
      intro x hx
      have hx2 : x = { l with tokensEnd := e } := by
        simpa [extendLast] using hx
      subst hx2
      exact h l (by simp)
  | l :: l2 :: ls, e, h => by
      intro x hx
      rw [extendLast] at hx
      rcases List.mem_cons.mp hx with h1 | h1
      · rw [h1]
        exact h l (List.mem_cons_self _ _)
      · exact extendLast_policy (l2 :: ls) e
          (fun y hy => h y (List.mem_cons_of_mem _ hy)) x h1

mutual

/-- Helper: the reconstructor traversal only ever appends flat lines
stamped `alreadyFormatted` (or re-spans existing ones). -/
theorem trTraverse_allAF (toks : List PreFormatToken) :
    ∀ (t : LayoutTree) (ind : Int) (st : TRState),
      allAlreadyFormatted st.lines →
      allAlreadyFormatted (trTraverse toks t ind st).lines
  | .node item ch, ind, st, h => by
      rw [trTraverse.eq_def]
      dsimp only
      by_cases hline : item.type = .line
      · rw [if_pos hline]
        by_cases hact : st.active
        · rw [if_pos hact]
          exact extendLast_policy st.lines item.tokensEnd h
        · rw [if_neg hact]
          intro x hx
          rcases List.mem_append.mp hx with h1 | h1
          · exact h x h1
          · rw [List.mem_singleton] at h1
            subst h1
            rfl
      · rw [if_neg hline]
        by_cases hjux : item.type = .juxtaposition
        · rw [if_pos hjux]
          exact trJuxta_allAF toks ch (ind + item.indentationSpaces) st h
        · rw [if_neg hjux]
          cases ch with
          | nil => exact h
          | cons c cs =>
              cases cs with
              | nil => exact trTraverse_allAF toks c _ st h
              | cons c2 cs2 =>
                  exact trStack_allAF toks (c2 :: cs2) _ _
                    (trTraverse_allAF toks c _ st h)

/-- Helper: list version for juxtaposed children. -/
theorem trJuxta_allAF (toks : List PreFormatToken) :
    ∀ (l : List LayoutTree) (ind : Int) (st : TRState),
      allAlreadyFormatted st.lines →
      allAlreadyFormatted (trJuxta toks l ind st).lines
  | [], _, _, h => h
  | c :: cs, ind, st, h => by
      rw [trJuxta]
      exact trJuxta_allAF toks cs ind _ (trTraverse_allAF toks c ind st h)

/-- Helper: list version for the remaining children of a stack. -/
theorem trStack_allAF (toks : List PreFormatToken) :
    ∀ (l : List LayoutTree) (ind : Int) (st : TRState),
      allAlreadyFormatted st.lines →
      allAlreadyFormatted (trStack toks l ind st).lines
  | [], _, _, h => h
  | c :: cs, ind, st, h => by
      rw [trStack]
      exact trStack_allAF toks cs ind _
        (trTraverse_allAF toks c ind { st with active := false } h)

end

/-- C1: after the reconstructor's node replacement finishes, the rewritten
node's partition policy is `optimalFunctionCallLayout` — not
`alreadyFormatted` as claimed — while every new child flat line emitted by
the reconstructor is stamped `alreadyFormatted`. -/
theorem Replace_policies (toks : List PreFormatToken) (lt : LayoutTree)
    (ind : Int) (r : ReplacedNode) (toks2 : List PreFormatToken)
    (h : ReplaceTokenPartitionTreeNode
        (trTraverse toks lt ind { lines := [], active := false }).lines
        ind toks = some (r, toks2)) :
    r.value.partitionPolicy = .optimalFunctionCallLayout ∧
      ∀ l ∈ r.childrenVals, l.partitionPolicy = .alreadyFormatted := by
  have hAF : allAlreadyFormatted
      (trTraverse toks lt ind { lines := [], active := false }).lines :=
    trTraverse_allAF toks lt ind _ (fun x hx => absurd hx (List.not_mem_nil x))
  rw [ReplaceTokenPartitionTreeNode] at h
  cases hh : (trTraverse toks lt ind
      { lines := [], active := false }).lines.head? with
  | none =>
      rw [hh] at h
      dsimp only at h
      cases h
  | some first =>
      cases hlast : (trTraverse toks lt ind
          { lines := [], active := false }).lines.getLast? with
      | none =>
          rw [hh, hlast] at h
          dsimp only at h
          cases h
      | some last =>
          rw [hh, hlast] at h
          dsimp only at h
          have h3 := Option.some.inj h
          have hr := congrArg Prod.fst h3
          dsimp only at hr
          subst hr
          exact ⟨rfl, fun l hl => hAF l hl⟩

/-- Counterexample to the original claim: a successful run in which the
rewritten node's policy is `optimalFunctionCallLayout`, which differs from
`alreadyFormatted`. -/
theorem Replace_policy_cex :
    (ReplaceTokenPartitionTreeNode
        (trTraverse c1toks c1tree 0 { lines := [], active := false }).lines
        0 c1toks).map (fun p => p.1.value.partitionPolicy)
      = some .optimalFunctionCallLayout ∧
    PartitionPolicyEnum.optimalFunctionCallLayout ≠ .alreadyFormatted :=
  ⟨rfl, by decide⟩

theorem Replace_policies_witness :
    (c1pair.1).value.partitionPolicy = .optimalFunctionCallLayout ∧
      ∀ l ∈ c1pair.1.childrenVals, l.partitionPolicy = .alreadyFormatted :=
  Replace_policies c1toks c1tree 0 c1pair.1 c1pair.2 rfl

/-! ## C4: break decisions finalized by the node replacement -/

theorem modifyTok_get_ne (toks : List PreFormatToken) (i j : Nat)
    (f : PreFormatToken → PreFormatToken) (h : j ≠ i) :
    (modifyTok toks i f)[j]? = toks[j]? := by
  rw [modifyTok]
  cases hi : toks.get? i with
  | none => rfl
  | some t => exact List.getElem?_set_ne h.symm

theorem modifyTok_get_eq (toks : List PreFormatToken) (i : Nat)
    (f : PreFormatToken → PreFormatToken) :
    (modifyTok toks i f)[i]? = (toks[i]?).map f := by
  rw [modifyTok]
  cases hi : toks.get? i with
  | none =>
      dsimp only
      rw [List.get?_eq_getElem?] at hi
      rw [hi]
      rfl
  | some t =>
      dsimp only
      rw [List.get?_eq_getElem?] at hi
      have hlt : i < toks.length := by
        by_contra hge
        rw [List.getElem?_eq_none (by omega)] at hi
        cases hi
      rw [List.getElem?_set, if_pos rfl, if_pos hlt, hi]
      rfl

theorem amar_outside (toks : List PreFormatToken) (j e k : Nat)
    (h : k < j ∨ e ≤ k) :
    (applyMustAppendRange toks j e)[k]? = toks[k]? := by
  rw [applyMustAppendRange]
  by_cases hje : j < e
  · rw [if_pos hje]
    rw [amar_outside _ (j + 1) e k (by omega)]
    exact modifyTok_get_ne toks j k _ (by omega)
  · rw [if_neg hje]
termination_by e - j

theorem amar_inside (toks : List PreFormatToken) (j e k : Nat)
    (h1 : j ≤ k) (h2 : k < e) :
    (applyMustAppendRange toks j e)[k]? = (toks[k]?).map
      (fun t => if t.breakDecision = .undecided then
        { t with breakDecision := .mustAppend } else t) := by
  rw [applyMustAppendRange, if_pos (by omega : j < e)]
  by_cases hkj : k = j
  · subst hkj
    rw [amar_outside _ (k + 1) e k (by omega)]
    exact modifyTok_get_eq toks k _
  · rw [amar_inside _ (j + 1) e k (by omega) h2]
    rw [modifyTok_get_ne toks j k _ hkj]
termination_by e - j

theorem ald_first (toks : List PreFormatToken) (l : UnwrappedLine)
    (hne : l.tokensBegin < l.tokensEnd) :
    (applyLineDecisions toks l)[l.tokensBegin]? = (toks[l.tokensBegin]?).map
      (fun t => { t with breakDecision := .mustWrap
                         spacesRequired := 0 }) := by
  rw [applyLineDecisions, if_pos (by omega : l.tokensBegin ≠ l.tokensEnd)]
  rw [amar_outside _ _ _ _ (by omega)]
  exact modifyTok_get_eq toks l.tokensBegin _

theorem ald_mid (toks : List PreFormatToken) (l : UnwrappedLine) (k : Nat)
    (h1 : l.tokensBegin < k) (h2 : k < l.tokensEnd) :
    (applyLineDecisions toks l)[k]? = (toks[k]?).map
      (fun t => if t.breakDecision = .undecided then
        { t with breakDecision := .mustAppend } else t) := by
  rw [applyLineDecisions, if_pos (by omega : l.tokensBegin ≠ l.tokensEnd)]
  rw [amar_inside _ _ _ k (by omega) h2]
  rw [modifyTok_get_ne toks l.tokensBegin k _ (by omega)]

theorem ald_outside (toks : List PreFormatToken) (l : UnwrappedLine)
    (k : Nat) (hwf : l.tokensBegin ≤ l.tokensEnd)
    (hout : k < l.tokensBegin ∨ l.tokensEnd ≤ k) :
    (applyLineDecisions toks l)[k]? = toks[k]? := by
  rw [applyLineDecisions]
  by_cases hbe : l.tokensBegin ≠ l.tokensEnd
  · rw [if_pos hbe]
    rw [amar_outside _ _ _ k (by omega)]
    exact modifyTok_get_ne toks l.tokensBegin k _ (by omega)
  · rw [if_neg hbe]

theorem foldl_ald_untouched :
    ∀ (ls : List UnwrappedLine) (ts : List PreFormatToken) (k : Nat),
      (∀ x ∈ ls, x.tokensBegin ≤ x.tokensEnd ∧
        (k < x.tokensBegin ∨ x.tokensEnd ≤ k)) →
      (ls.foldl applyLineDecisions ts)[k]? = ts[k]?
  | [], _, _, _ => rfl
  | x :: rest, ts, k, h => by
      rw [List.foldl_cons]
      rw [foldl_ald_untouched rest _ k
        (fun y hy => h y (List.mem_cons_of_mem _ hy))]
      exact ald_outside ts x k (h x (List.mem_cons_self _ _)).1
        (h x (List.mem_cons_self _ _)).2

theorem foldl_ald_line :
    ∀ (ls : List UnwrappedLine) (ts : List PreFormatToken)
      (l : UnwrappedLine) (k : Nat),
      (∀ x ∈ ls, x.tokensBegin ≤ x.tokensEnd) →
      List.Pairwise (fun a b => a.tokensEnd ≤ b.tokensBegin) ls →
      l ∈ ls → l.tokensBegin ≤ k → k < l.tokensEnd →
      (ls.foldl applyLineDecisions ts)[k]? = (applyLineDecisions ts l)[k]?
  | x :: rest, ts, l, k, hwf, hsort, hl, hk1, hk2 => by
      rw [List.foldl_cons]
      rcases List.mem_cons.mp hl with h1 | h1
      · subst h1
        exact foldl_ald_untouched rest _ k (fun y hy =>
          ⟨hwf y (List.mem_cons_of_mem _ hy),
           Or.inl (by
             have := (List.pairwise_cons.mp hsort).1 y hy
             omega)⟩)
      · rw [foldl_ald_line rest _ l k
          (fun y hy => hwf y (List.mem_cons_of_mem _ hy))
          (List.pairwise_cons.mp hsort).2 h1 hk1 hk2]
        have hxl : x.tokensEnd ≤ l.tokensBegin :=
          (List.pairwise_cons.mp hsort).1 l h1
        have hts : (applyLineDecisions ts x)[k]? = ts[k]? :=
          ald_outside ts x k (hwf x (List.mem_cons_self _ _))
            (Or.inr (by omega))
        by_cases hkb : k = l.tokensBegin
        · rw [hkb] at hts ⊢
          rw [ald_first _ l (by omega), ald_first _ l (by omega), hts]
        · rw [ald_mid _ l k (by omega) hk2, ald_mid _ l k (by omega) hk2,
            hts]

/-- C4: after the reconstructor replaces the partition node, for every
emitted flat line with a non-empty token range — the lines being
well-formed and listed in order with disjoint ranges — the line's first
token is forced to `mustWrap` with zero required spaces, and every
non-first token in the line keeps its decision unless it was `undecided`,
in which case it becomes `mustAppend`. -/
theorem Replace_break_decisions (lines : List UnwrappedLine) (ind : Int)
    (toks toks2 : List PreFormatToken) (r : ReplacedNode)
    (hwf : ∀ x ∈ lines, x.tokensBegin ≤ x.tokensEnd)
    (hsort : List.Pairwise (fun a b => a.tokensEnd ≤ b.tokensBegin) lines)
    (h : ReplaceTokenPartitionTreeNode lines ind toks = some (r, toks2)) :
    ∀ l ∈ lines, l.tokensBegin < l.tokensEnd →
      toks2[l.tokensBegin]? = (toks[l.tokensBegin]?).map
        (fun t => { t with breakDecision := .mustWrap
                           spacesRequired := 0 }) ∧
      ∀ k, l.tokensBegin < k → k < l.tokensEnd →
        toks2[k]? = (toks[k]?).map
          (fun t => if t.breakDecision = .undecided then
            { t with breakDecision := .mustAppend } else t) := by
  have htoks2 : toks2 = lines.foldl applyLineDecisions toks := by
    rw [ReplaceTokenPartitionTreeNode] at h
    cases hh : lines.head? with
    | none =>
        rw [hh] at h
        dsimp only at h
        cases h
    | some first =>
        cases hlast : lines.getLast? with
        | none =>
            rw [hh, hlast] at h
            dsimp only at h
            cases h
        | some last =>
            rw [hh, hlast] at h
            dsimp only at h
            have h3 := Option.some.inj h
            exact (congrArg Prod.snd h3).symm
  subst htoks2
  intro l hl hlt
  constructor
  · rw [foldl_ald_line lines toks l l.tokensBegin hwf hsort hl le_rfl hlt]
    exact ald_first toks l hlt
  · intro k hk1 hk2
    rw [foldl_ald_line lines toks l k hwf hsort hl (by omega) hk2]
    exact ald_mid toks l k hk1 hk2

theorem Replace_break_decisions_witness :
    (c4pair.2)[0]? = ((c4toks[0]?).map
      (fun t => { t with breakDecision := .mustWrap
                         spacesRequired := 0 })) ∧
    (c4pair.2)[1]? = ((c4toks[1]?).map
      (fun t => if t.breakDecision = .undecided then
        { t with breakDecision := .mustAppend } else t)) :=
  ⟨(Replace_break_decisions c4lines 0 c4toks c4pair.2 c4pair.1
      (by decide) (by decide) rfl
      { tokensBegin := 0, tokensEnd := 2 } (by decide) (by decide)).1,
   (Replace_break_decisions c4lines 0 c4toks c4pair.2 c4pair.1
      (by decide) (by decide) rfl
      { tokensBegin := 0, tokensEnd := 2 } (by decide) (by decide)).2
     1 (by decide) (by decide)⟩

/-! ## C9: warning on indentation of an appended line -/

theorem bool_and_true {a b : Bool} (h : (a && b) = true) :
    a = true ∧ b = true := by
  cases a <;> cases b <;> simp_all

mutual

/-- Helper: traversing a tree without childless composite nodes always
leaves a line active. -/
theorem trTraverse_active (toks : List PreFormatToken) :
    ∀ (t : LayoutTree), noEmptyComposite t = true →
      ∀ (ind : Int) (st : TRState), (trTraverse toks t ind st).active = true
  | .node item ch, hne, ind, st => by
      rw [noEmptyComposite] at hne
      rw [trTraverse.eq_def]
      dsimp only
      by_cases hline : item.type = .line
      · rw [if_pos hline]
        by_cases hact : st.active
        · rw [if_pos hact]
          exact hact
        · rw [if_neg hact]
      · rw [if_neg hline] at hne
        rw [if_neg hline]
        rcases bool_and_true hne with ⟨hch, hlist⟩
        by_cases hjux : item.type = .juxtaposition
        · rw [if_pos hjux]
          cases ch with
          | nil => cases hch
          | cons c cs =>
              exact trJuxta_active toks (c :: cs) hlist (by simp) _ st
        · rw [if_neg hjux]
          cases ch with
          | nil => cases hch
          | cons c cs =>
              cases cs with
              | nil =>
                  dsimp only
                  exact trTraverse_active toks c
                    (bool_and_true hlist).1 _ st
              | cons c2 cs2 =>
                  dsimp only
                  exact trStack_active toks (c2 :: cs2)
                    (bool_and_true hlist).2 (by simp) _ _

/-- Helper: juxtaposed-children version of `trTraverse_active`. -/
theorem trJuxta_active (toks : List PreFormatToken) :
    ∀ (l : List LayoutTree), noEmptyCompositeList l = true → l ≠ [] →
      ∀ (ind : Int) (st : TRState), (trJuxta toks l ind st).active = true
  | [c], hl, _, ind, st => by
      rw [trJuxta, trJuxta]
      exact trTraverse_active toks c (bool_and_true hl).1 ind st
  | c :: c2 :: cs, hl, _, ind, st => by
      rw [trJuxta]
      exact trJuxta_active toks (c2 :: cs)
        (bool_and_true hl).2 (by simp) ind _

/-- Helper: stack-children version of `trTraverse_active`. -/
theorem trStack_active (toks : List PreFormatToken) :
    ∀ (l : List LayoutTree), noEmptyCompositeList l = true → l ≠ [] →
      ∀ (ind : Int) (st : TRState), (trStack toks l ind st).active = true
  | [c], hl, _, ind, st => by
      rw [trStack, trStack]
      exact trTraverse_active toks c (bool_and_true hl).1 ind _
  | c :: c2 :: cs, hl, _, ind, st => by
      rw [trStack]
      exact trStack_active toks (c2 :: cs)
        (bool_and_true hl).2 (by simp) ind _

end

mutual

/-- Helper: while a line is active, the reconstructor's result does not
depend on the ambient indentation (for trees without childless composite
nodes, which keep a line active throughout). -/
theorem trTraverse_indep (toks : List PreFormatToken) :
    ∀ (t : LayoutTree), noEmptyComposite t = true →
      ∀ (ind1 ind2 : Int) (st : TRState), st.active = true →
        trTraverse toks t ind1 st = trTraverse toks t ind2 st
  | .node item ch, hne, ind1, ind2, st, hact => by
      rw [noEmptyComposite] at hne
      rw [trTraverse.eq_def]
      rw [trTraverse.eq_def]
      dsimp only
      by_cases hline : item.type = .line
      · rw [if_pos hline, if_pos hline, if_pos hact, if_pos hact]
      · rw [if_neg hline] at hne
        rcases bool_and_true hne with ⟨hch, hlist⟩
        rw [if_neg hline, if_neg hline]
        by_cases hjux : item.type = .juxtaposition
        · rw [if_pos hjux, if_pos hjux]
          exact trJuxta_indep toks ch hlist _ _ st hact
        · rw [if_neg hjux, if_neg hjux]
          cases ch with
          | nil => cases hch
          | cons c cs =>
              cases cs with
              | nil =>
                  dsimp only
                  exact trTraverse_indep toks c
                    (bool_and_true hlist).1 _ _ st hact
              | cons c2 cs2 =>
                  dsimp only
                  rw [if_pos hact, if_pos hact]
                  rw [trTraverse_indep toks c (bool_and_true hlist).1
                    (ind1 + item.indentationSpaces)
                    (ind2 + item.indentationSpaces) st hact]

/-- Helper: list version of `trTraverse_indep` for juxtaposed children. -/
theorem trJuxta_indep (toks : List PreFormatToken) :
    ∀ (l : List LayoutTree), noEmptyCompositeList l = true →
      ∀ (ind1 ind2 : Int) (st : TRState), st.active = true →
        trJuxta toks l ind1 st = trJuxta toks l ind2 st
  | [], _, _, _, _, _ => rfl
  | c :: cs, hl, ind1, ind2, st, hact => by
      rw [trJuxta, trJuxta]
      rw [trTraverse_indep toks c (bool_and_true hl).1 ind1 ind2 st
        hact]
      exact trJuxta_indep toks cs (bool_and_true hl).2 ind1 ind2 _
        (trTraverse_active toks c (bool_and_true hl).1 ind2 st)

end

/-- C9: when the reconstructor visits a layout node carrying positive
relative indentation while a line is active, it emits a (non-fatal)
warning; and — provided the subtree has no childless composite nodes,
which would deactivate the line mid-traversal — the indentation is
discarded: the emitted flat lines equal those produced with zero relative
indentation on that node. -/
theorem reconstructor_discards_indentation (toks : List PreFormatToken)
    (item : LayoutItem) (ch : List LayoutTree) (curInd : Int) (st : TRState)
    (hpos : 0 < item.indentationSpaces) (hact : st.active = true)
    (hne : noEmptyComposite (.node item ch) = true) :
    1 ≤ trWarn toks (.node item ch) curInd st ∧
    (trTraverse toks (.node item ch) curInd st).lines =
      (trTraverse toks
        (.node { item with indentationSpaces := 0 } ch) curInd st).lines := by
  constructor
  · rw [trWarn.eq_def]
    dsimp only
    rw [if_pos ⟨hpos, hact⟩]
    exact Nat.le_add_right 1 _
  · have h2 : trTraverse toks (.node { item with indentationSpaces := 0 } ch)
        curInd st =
        trTraverse toks (.node { item with indentationSpaces := 0 } ch)
          (curInd + item.indentationSpaces) st := by
      have hne0 : noEmptyComposite
          (.node { item with indentationSpaces := 0 } ch) = true := hne
      exact trTraverse_indep toks _ hne0 curInd
        (curInd + item.indentationSpaces) st hact
    rw [h2]
    rw [trTraverse.eq_def]
    rw [trTraverse.eq_def]
    dsimp only
    rw [noEmptyComposite] at hne
    by_cases hline : item.type = .line
    · rw [if_pos hline, if_pos hline, if_pos hact, if_pos hact]
    · rw [if_neg hline] at hne
      rcases bool_and_true hne with ⟨hch, hlist⟩
      rw [if_neg hline, if_neg hline]
      by_cases hjux : item.type = .juxtaposition
      · rw [if_pos hjux, if_pos hjux]
        rw [trJuxta_indep toks ch hlist (curInd + item.indentationSpaces)
          (curInd + item.indentationSpaces + 0) st hact]
      · rw [if_neg hjux, if_neg hjux]
        cases ch with
        | nil => cases hch
        | cons c cs =>
            cases cs with
            | nil =>
                dsimp only
                rw [trTraverse_indep toks c (bool_and_true hlist).1
                  (curInd + item.indentationSpaces)
                  (curInd + item.indentationSpaces + 0) st hact]
            | cons c2 cs2 =>
                dsimp only
                rw [if_pos hact, if_pos hact]
                rw [trTraverse_indep toks c (bool_and_true hlist).1
                  (curInd + item.indentationSpaces)
                  (curInd + item.indentationSpaces + 0) st hact]

/-- Counterexample to the original claim: the warning fires exactly once
(for the indented node visited while a line is active), yet the emitted
flat lines are not identical to the zero-indentation run — a childless
stack deactivates the line, and the remaining content starts a new line
at the supposedly discarded indentation. -/
theorem reconstructor_indentation_cex :
    trWarn c9toks c9tree 0 { lines := [], active := false } = 1 ∧
    (trTraverse c9toks c9tree 0 { lines := [], active := false }).lines ≠
      (trTraverse c9toks c9tree0 0 { lines := [], active := false }).lines :=
  ⟨rfl, by decide⟩

theorem reconstructor_discards_indentation_witness :
    1 ≤ trWarn c9toks (.node c9item [c9lineB]) 0 c9st ∧
    (trTraverse c9toks (.node c9item [c9lineB]) 0 c9st).lines =
      (trTraverse c9toks
        (.node { c9item with indentationSpaces := 0 } [c9lineB]) 0
        c9st).lines :=
  reconstructor_discards_indentation c9toks c9item [c9lineB] 0 c9st
    (by decide) rfl (by decide)

end Verible
